import Mathlib

/-!
Verification of the expression normalization and classification pipeline of an
advanced math processor (src/main.py).

The development shallowly embeds the string-rewriting core of the program
(class AdvancedMathProcessor): the lexical normalizer (preprocess_text), the
notation resolver (handle_mathematical_notation), the candidate simplifier
(step2_simplify), the problem classifier (step3_solve), the output formatter
(step4_format_output) and the pipeline driver (process_user_input).

Strings are modelled as List Char.  Python regular-expression passes
(re.sub with a fixed pattern) are embedded as left-to-right scanners written
with an explicit fuel argument (fuel = length of the scanned list + 1), so
that every definition is structurally recursive and kernel-computable.
Character classes follow Python's re module on the ASCII range: the word
class is letters, digits and underscore; the pipeline's own vocabulary
(function names, markers, operators) is ASCII.

Calls into the external symbolic engine (sympy) are kept abstract: the
eager numeric evaluation of function calls takes an evaluation oracle as a
parameter, and the simplifier/solver stages are parametrized by an Engine
structure whose fields return Option values (none models a raised and
caught exception).
-/

namespace MainPy

/-! ## Character classes (Python re, ASCII range) -/

/-- Python whitespace class (ASCII part): space, tab, newline, carriage
return, vertical tab, form feed. -/
def isSpaceC (c : Char) : Bool :=
  c = ' ' || c = '\t' || c = '\n' || c = '\r' || c = '\x0b' || c = '\x0c'

/-- Python word class (ASCII part, used by word boundaries in the alias
patterns): letters, digits and underscore. -/
def isWordC (c : Char) : Bool :=
  c.isAlpha || c.isDigit || c = '_'

/-- Character class of the implicit-multiplication letter patterns, literally
the bracket expression of the source regexes. -/
def isLetU (c : Char) : Bool :=
  c.isAlpha || c = '_'

/-- Digit class of the implicit-multiplication number patterns. -/
def isDigitC (c : Char) : Bool :=
  c.isDigit

/-! ## Generic string utilities -/

/-- Substring containment, Python's "pat in s". -/
def containsSub (p : List Char) : List Char → Bool
  | [] => p.isPrefixOf []
  | c :: cs => p.isPrefixOf (c :: cs) || containsSub p cs

/-- Fueled worker for str.replace: replace every (leftmost, non-overlapping)
occurrence of the nonempty pattern p by r. -/
def replaceSubGo (p r : List Char) : Nat → List Char → List Char
  | 0, s => s
  | _ + 1, [] => []
  | fuel + 1, c :: cs =>
    if !p.isEmpty && p.isPrefixOf (c :: cs) then
      r ++ replaceSubGo p r fuel ((c :: cs).drop p.length)
    else
      c :: replaceSubGo p r fuel cs

/-- Python str.replace(p, r) for a nonempty pattern p (all patterns used by
the program are nonempty; for an empty pattern this returns s unchanged). -/
def replaceSub (p r s : List Char) : List Char :=
  replaceSubGo p r (s.length + 1) s

/-- Replacement of every occurrence of a single character, the special case
of str.replace used for the homoglyph and operator-symbol tables. -/
def replaceCharL (o : Char) (n : List Char) : List Char → List Char
  | [] => []
  | c :: cs => if c = o then n ++ replaceCharL o n cs else c :: replaceCharL o n cs

/-- Python str.strip of leading whitespace. -/
def stripLead (s : List Char) : List Char :=
  s.dropWhile isSpaceC

/-- Python str.strip (both ends). -/
def pyStrip (s : List Char) : List Char :=
  ((s.dropWhile isSpaceC).reverse.dropWhile isSpaceC).reverse

/-! ## Lexical normalizer: preprocess_text -/

/-- Worker for the whitespace collapse re.sub(r'\s+', ' ', stripped):
the flag records whether the previous character was whitespace, in which
case further whitespace characters are absorbed into the single emitted
space. -/
def collapseGo : Bool → List Char → List Char
  | _, [] => []
  | prevSp, c :: cs =>
    if isSpaceC c then
      if prevSp then collapseGo true cs else ' ' :: collapseGo true cs
    else
      c :: collapseGo false cs

/-- Whitespace canonicalization of preprocess_text: strip, then collapse
every whitespace run to a single space. -/
def wsL (s : List Char) : List Char :=
  collapseGo false (pyStrip s)

/-- Word-boundary test on the left of a match: start of string or a
preceding non-word character. -/
def bdryL : Option Char → Bool
  | none => true
  | some c => !isWordC c

/-- Word-boundary test on the right of a match: end of string or a
following non-word character. -/
def bdryR : List Char → Bool
  | [] => true
  | c :: _ => !isWordC c

/-- Fueled worker for one word-boundary alias pass: the semantics of
Python's re.sub of a pattern backslash-b w backslash-b (for a pattern w
consisting of word characters only) is a left-to-right scan replacing every
occurrence of w whose neighbours are non-word characters or string ends.
The prev argument carries the character immediately to the left of the scan
position in the original string. -/
def subWordGo (w r : List Char) : Nat → Option Char → List Char → List Char
  | 0, _, s => s
  | _ + 1, _, [] => []
  | fuel + 1, prev, c :: cs =>
    if w.isPrefixOf (c :: cs) && bdryL prev && bdryR ((c :: cs).drop w.length) then
      r ++ subWordGo w r fuel (some (w.getLastD c)) ((c :: cs).drop w.length)
    else
      c :: subWordGo w r fuel (some c) cs

/-- One alias substitution pass re.sub of backslash-b w backslash-b. -/
def subWord (w r s : List Char) : List Char :=
  subWordGo w r (s.length + 1) none s

/-- The eight multi-letter function aliases of preprocess_text, in source
order (main.py lines 398-407). -/
def aliasPairs : List (String × String) :=
  [("lg", "log10"), ("ln", "log"), ("arctg", "atan"), ("arcsin", "asin"),
   ("arccos", "acos"), ("sh", "sinh"), ("ch", "cosh"), ("th", "tanh")]

/-- Function-alias rewriting pass of preprocess_text. -/
def aliasSubL (s : List Char) : List Char :=
  aliasPairs.foldl (fun acc p => subWord p.1.toList p.2.toList acc) s

/-- The Cyrillic homoglyph table (main.py lines 296-299), in source order. -/
def cyrPairs : List (Char × String) :=
  [('х', "x"), ('у', "y"), ('з', "z"), ('а', "a"), ('б', "b"), ('в', "c"),
   ('п', "pi"), ('е', "E")]

/-- Cyrillic homoglyph replacement pass of preprocess_text. -/
def cyrSubL (s : List Char) : List Char :=
  cyrPairs.foldl (fun acc p => replaceCharL p.1 p.2.toList acc) s

/-- The operator-symbol table (main.py lines 301-308), in source order. -/
def symPairs : List (Char × String) :=
  [('^', "**"), ('√', "sqrt"), ('∞', "oo"), ('±', "+/-"), ('×', "*"), ('÷', "/")]

/-- Operator-symbol replacement pass of preprocess_text. -/
def symSubL (s : List Char) : List Char :=
  symPairs.foldl (fun acc p => replaceCharL p.1 p.2.toList acc) s

/-- preprocess_text (main.py lines 392-420): whitespace canonicalization,
then word-boundary alias rewriting, then Cyrillic homoglyph replacement,
then operator-symbol replacement, strictly in that order. -/
def preprocessL (s : List Char) : List Char :=
  symSubL (cyrSubL (aliasSubL (wsL s)))

/-- String-level wrapper of the lexical normalizer. -/
def preprocessText (s : String) : String :=
  ⟨preprocessL s.data⟩

/-! ## Notation resolver: handle_mathematical_notation (string part) -/

/-- Fueled worker for one eager-evaluation pass
re.sub of name backslash-( bracket-not-rparen-plus backslash-), where
the replacement function consults the evaluation oracle ev: some result
models a numeric argument whose call sympy evaluated to that string, none
models a symbolic argument or a failed evaluation, in which case the match
is kept verbatim (and scanning resumes after it, as re.sub does). -/
def subFuncGo (name : List Char) (ev : List Char → Option (List Char)) :
    Nat → List Char → List Char
  | 0, s => s
  | _ + 1, [] => []
  | fuel + 1, c :: cs =>
    if (name ++ ['(']).isPrefixOf (c :: cs) then
      let after := (c :: cs).drop (name.length + 1)
      match after.takeWhile (· ≠ ')'), after.dropWhile (· ≠ ')') with
      | a :: as_, ')' :: rest =>
        (match ev (a :: as_) with
         | some r => r ++ subFuncGo name ev fuel rest
         | none => name ++ '(' :: (a :: as_) ++ ')' :: subFuncGo name ev fuel rest)
      | _, _ => c :: subFuncGo name ev fuel cs
    else
      c :: subFuncGo name ev fuel cs

/-- One eager-evaluation pass for one function name. -/
def subFunc (name : List Char) (ev : List Char → Option (List Char))
    (s : List Char) : List Char :=
  subFuncGo name ev (s.length + 1) s

/-- The function names eagerly evaluated on numeric arguments, in source
order (main.py lines 438-447). -/
def funcNames : List String :=
  ["log10", "log", "sqrt", "sin", "cos", "tan", "factorial", "exp"]

/-- Eager numeric evaluation of function calls: one re.sub pass per name,
in source order, all driven by the evaluation oracle. -/
def funcPass (ev : String → List Char → Option (List Char)) (s : List Char) :
    List Char :=
  funcNames.foldl (fun acc n => subFunc n.toList (ev n) acc) s

/-- Fueled worker for the power-call rewrite
re.sub of word-plus caret digit-plus lparen args rparen into
word lparen args rparen star star digits (main.py line 468). -/
def subPowGo : Nat → List Char → List Char
  | 0, s => s
  | _ + 1, [] => []
  | fuel + 1, c :: cs =>
    if isWordC c then
      let run := c :: cs.takeWhile isWordC
      let rest := cs.dropWhile isWordC
      match rest with
      | '^' :: r2 =>
        (match r2.takeWhile isDigitC, r2.dropWhile isDigitC with
         | d :: ds, '(' :: r3 =>
           (match r3.takeWhile (· ≠ ')'), r3.dropWhile (· ≠ ')') with
            | a :: as_, ')' :: r4 =>
              run ++ '(' :: (a :: as_) ++ ')' :: '*' :: '*' :: (d :: ds) ++ subPowGo fuel r4
            | _, _ => run ++ '^' :: subPowGo fuel r2)
         | _, _ => run ++ '^' :: subPowGo fuel r2)
      | _ => run ++ subPowGo fuel rest
    else
      c :: subPowGo fuel cs

/-- Power-call shorthand rewrite. -/
def subPow (s : List Char) : List Char :=
  subPowGo (s.length + 1) s

/-- The protected reserved identifiers, in source order (main.py lines
426-435). -/
def protectedWords : List String :=
  ["pi", "E", "oo", "I",
   "sin", "cos", "tan", "cot", "sec", "csc",
   "asin", "acos", "atan", "acot", "asec", "acsc",
   "sinh", "cosh", "tanh", "coth", "sech", "csch",
   "log", "log10", "ln", "exp", "sqrt", "cbrt",
   "factorial", "gamma", "beta",
   "Abs", "abs", "Max", "Min",
   "Sum", "Product", "Integral", "Derivative"]

/-- Placeholder marker used by the protection pass for the k-th protected
word found (the source f-string produces two underscores, TEMP, an
underscore, the counter, two underscores). -/
def markerOf (k : Nat) : List Char :=
  "__TEMP_".toList ++ (toString k).toList ++ "__".toList

/-- Protection pass (main.py lines 474-483): walk the protected-word list in
order; whenever the word occurs in the current string, substitute every
occurrence by a fresh marker and record the pair.  Returns the protected
string together with the marker-to-word association list in creation
order. -/
def protectLoop : List String → Nat → List Char →
    List Char × List (List Char × List Char)
  | [], _, s => (s, [])
  | w :: ws, k, s =>
    if containsSub w.toList s then
      let m := markerOf k
      let s' := replaceSub w.toList m s
      let pr := protectLoop ws (k + 1) s'
      (pr.1, (m, w.toList) :: pr.2)
    else
      protectLoop ws k s

/-- Fueled worker for re.sub of digit-plus letter (insert a star between a
number and a letter or underscore). -/
def subDLGo : Nat → List Char → List Char
  | 0, s => s
  | _ + 1, [] => []
  | fuel + 1, c :: cs =>
    if isDigitC c then
      let run := c :: cs.takeWhile isDigitC
      let rest := cs.dropWhile isDigitC
      match rest with
      | l :: rest2 =>
        if isLetU l then run ++ '*' :: l :: subDLGo fuel rest2
        else run ++ subDLGo fuel rest
      | [] => run
    else
      c :: subDLGo fuel cs

/-- Implicit multiplication: number followed by letter. -/
def subDL (s : List Char) : List Char := subDLGo (s.length + 1) s

/-- Fueled worker for re.sub of letter digit-plus (insert a star between a
letter or underscore and a number). -/
def subLDGo : Nat → List Char → List Char
  | 0, s => s
  | _ + 1, [] => []
  | fuel + 1, c :: cs =>
    if isLetU c then
      match cs with
      | d :: cs2 =>
        if isDigitC d then
          c :: '*' :: d :: cs2.takeWhile isDigitC ++ subLDGo fuel (cs2.dropWhile isDigitC)
        else c :: subLDGo fuel cs
      | [] => [c]
    else
      c :: subLDGo fuel cs

/-- Implicit multiplication: letter followed by number. -/
def subLD (s : List Char) : List Char := subLDGo (s.length + 1) s

/-- Fueled worker for re.sub of digit-plus lparen (insert a star between a
number and an opening parenthesis). -/
def subDPGo : Nat → List Char → List Char
  | 0, s => s
  | _ + 1, [] => []
  | fuel + 1, c :: cs =>
    if isDigitC c then
      let run := c :: cs.takeWhile isDigitC
      let rest := cs.dropWhile isDigitC
      match rest with
      | '(' :: rest2 => run ++ '*' :: '(' :: subDPGo fuel rest2
      | _ => run ++ subDPGo fuel rest
    else
      c :: subDPGo fuel cs

/-- Implicit multiplication: number followed by opening parenthesis. -/
def subDP (s : List Char) : List Char := subDPGo (s.length + 1) s

/-- Fueled worker for re.sub of rparen letter (insert a star between a
closing parenthesis and a letter or underscore). -/
def subPLGo : Nat → List Char → List Char
  | 0, s => s
  | _ + 1, [] => []
  | fuel + 1, c :: cs =>
    if c = ')' then
      match cs with
      | l :: cs2 =>
        if isLetU l then ')' :: '*' :: l :: subPLGo fuel cs2
        else ')' :: subPLGo fuel cs
      | [] => [')']
    else
      c :: subPLGo fuel cs

/-- Implicit multiplication: closing parenthesis followed by letter. -/
def subPL (s : List Char) : List Char := subPLGo (s.length + 1) s

/-- Fueled worker for re.sub of rparen digit-plus (insert a star between a
closing parenthesis and a number). -/
def subPDGo : Nat → List Char → List Char
  | 0, s => s
  | _ + 1, [] => []
  | fuel + 1, c :: cs =>
    if c = ')' then
      match cs with
      | d :: cs2 =>
        if isDigitC d then
          ')' :: '*' :: d :: cs2.takeWhile isDigitC ++ subPDGo fuel (cs2.dropWhile isDigitC)
        else ')' :: subPDGo fuel cs
      | [] => [')']
    else
      c :: subPDGo fuel cs

/-- Implicit multiplication: closing parenthesis followed by number. -/
def subPD (s : List Char) : List Char := subPDGo (s.length + 1) s

/-- The five implicit-multiplication insertions, in source order (main.py
lines 486-499). -/
def mulPass (s : List Char) : List Char :=
  subPD (subPL (subDP (subLD (subDL s))))

/-- Fueled worker for the absolute-value rewrite re.sub of bar
bracket-not-bar-plus bar into Abs lparen content rparen. -/
def subAbsGo : Nat → List Char → List Char
  | 0, s => s
  | _ + 1, [] => []
  | fuel + 1, c :: cs =>
    if c = '|' then
      match cs.takeWhile (· ≠ '|'), cs.dropWhile (· ≠ '|') with
      | a :: as_, '|' :: rest =>
        "Abs(".toList ++ (a :: as_) ++ ')' :: subAbsGo fuel rest
      | _, _ => c :: subAbsGo fuel cs
    else
      c :: subAbsGo fuel cs

/-- Absolute-value bar rewrite (main.py line 506). -/
def subAbs (s : List Char) : List Char := subAbsGo (s.length + 1) s

/-- The string-rewriting part of handle_mathematical_notation (main.py lines
422-508): eager numeric evaluation of function calls, power-call rewrite,
protection of reserved identifiers behind markers, the five
implicit-multiplication insertions, restoration of the markers, and the
absolute-value rewrite.  The returned string is what the code finally hands
to the engine's implicit-multiplication-aware parser. -/
def handleNotationL (ev : String → List Char → Option (List Char))
    (s : List Char) : List Char :=
  let s1 := funcPass ev s
  let s2 := subPow s1
  let pr := protectLoop protectedWords 0 s2
  let s4 := mulPass pr.1
  let s5 := pr.2.foldl (fun acc p => replaceSub p.1 p.2 acc) s4
  subAbs s5

/-- Composition of the lexical normalizer and the notation resolver on a
plain (non-equation, non-construct) input, the normalization path of
parse_mathematical_expression (main.py lines 535 and 554). -/
def resolveStr (ev : String → List Char → Option (List Char)) (s : String) :
    String :=
  ⟨handleNotationL ev (preprocessL s.data)⟩

/-- Evaluation oracle modelling sympy's behaviour on symbolic arguments:
an argument with free symbols is never evaluated, so every consulted call
keeps its original text. -/
def evNone : String → List Char → Option (List Char) :=
  fun _ _ => none

/-- Unfolding of the eager-evaluation pass into its eight ordered
substitutions. -/
theorem funcPass_unfold (ev : String → List Char → Option (List Char))
    (s : List Char) :
    funcPass ev s =
      subFunc "exp".toList (ev "exp")
        (subFunc "factorial".toList (ev "factorial")
          (subFunc "tan".toList (ev "tan")
            (subFunc "cos".toList (ev "cos")
              (subFunc "sin".toList (ev "sin")
                (subFunc "sqrt".toList (ev "sqrt")
                  (subFunc "log".toList (ev "log")
                    (subFunc "log10".toList (ev "log10") s))))))) := rfl

/-- The notation resolver depends on the evaluation oracle only through the
eager-evaluation pass. -/
theorem handleNotationL_congr
    (ev ev' : String → List Char → Option (List Char)) (s : List Char)
    (h : funcPass ev s = funcPass ev' s) :
    handleNotationL ev s = handleNotationL ev' s := by
  unfold handleNotationL
  rw [h]

/-- Evaluation of the notation resolver once the outcome of the
eager-evaluation pass is known. -/
theorem handleNotationL_eq (ev : String → List Char → Option (List Char))
    (s t : List Char) (h : funcPass ev s = t) :
    handleNotationL ev s =
      subAbs ((protectLoop protectedWords 0 (subPow t)).2.foldl
        (fun acc p => replaceSub p.1 p.2 acc)
        (mulPass (protectLoop protectedWords 0 (subPow t)).1)) := by
  unfold handleNotationL
  rw [h]

/-- C1: the specification demands that normalization never splits a
protected identifier standing next to a digit or parenthesis, that the
resolved form of 2sin(x) is equivalent to 2*sin(x), and that every
placeholder is restored to its reserved word after multiplication
insertion.  The code breaks all three on the input 2sin(x) (whose sin
argument is symbolic, so the oracle declines eager evaluation): the
protection marker __TEMP_0__ is itself torn apart by the digit/letter
multiplication rules into __TEMP_*0*__, restoration therefore finds no
marker to restore, and the identifier sin is gone from the output, which
the engine would read as a product involving the factor 0. -/
theorem c1_protected_identifier_mangled
    (ev : String → List Char → Option (List Char))
    (hev : ev "sin" "x".toList = none) :
    resolveStr ev "2sin(x)" = "2*__TEMP_*0*__(x)" ∧
    containsSub "__TEMP".toList (resolveStr ev "2sin(x)").data = true ∧
    containsSub "sin".toList (resolveStr ev "2sin(x)").data = false := by
  have hf' : ev "sin" ['x'] = none := hev
  have hsin : subFunc "sin".toList (ev "sin") "2sin(x)".toList = "2sin(x)".toList := by
    have key : subFunc "sin".toList (ev "sin") "2sin(x)".toList
        = '2' :: (match ev "sin" ['x'] with
           | some r => r ++ ([] : List Char)
           | none => "sin(x)".toList) := rfl
    rw [key, hf']
    rfl
  have hfp : funcPass ev "2sin(x)".toList = "2sin(x)".toList := by
    rw [funcPass_unfold,
      show subFunc "log10".toList (ev "log10") "2sin(x)".toList = "2sin(x)".toList from rfl,
      show subFunc "log".toList (ev "log") "2sin(x)".toList = "2sin(x)".toList from rfl,
      show subFunc "sqrt".toList (ev "sqrt") "2sin(x)".toList = "2sin(x)".toList from rfl,
      hsin,
      show subFunc "cos".toList (ev "cos") "2sin(x)".toList = "2sin(x)".toList from rfl,
      show subFunc "tan".toList (ev "tan") "2sin(x)".toList = "2sin(x)".toList from rfl,
      show subFunc "factorial".toList (ev "factorial") "2sin(x)".toList = "2sin(x)".toList from rfl,
      show subFunc "exp".toList (ev "exp") "2sin(x)".toList = "2sin(x)".toList from rfl]
  have hres : resolveStr ev "2sin(x)" = "2*__TEMP_*0*__(x)" := by
    show (⟨handleNotationL ev (preprocessL "2sin(x)".data)⟩ : String) = _
    rw [show preprocessL "2sin(x)".data = "2sin(x)".toList from rfl,
      handleNotationL_eq ev _ _ hfp]
    rfl
  exact ⟨hres, by rw [hres]; decide, by rw [hres]; decide⟩

/-- Witness for C1 at the concrete oracle that never evaluates eagerly. -/
theorem c1_protected_identifier_mangled_witness :
    resolveStr evNone "2sin(x)" = "2*__TEMP_*0*__(x)" ∧
    containsSub "__TEMP".toList (resolveStr evNone "2sin(x)").data = true ∧
    containsSub "sin".toList (resolveStr evNone "2sin(x)").data = false :=
  c1_protected_identifier_mangled evNone rfl

/-- C2: the specification claims that name^digits(args) is rewritten to the
power of a call and that sin^2(x) + cos^2(x) therefore classifies as a
simplification with solution 1.  In the pipeline this cannot happen: the
lexical normalizer replaces every caret by two stars before
handle_mathematical_notation runs, so the caret-based power-call regex of
line 468 never fires (the rewrite does work on a raw caret string, last
conjunct but one), and the protection pass then mangles sin and cos into
unrestored markers, so the string handed to the engine contains neither
sin(x)**2 nor any sin at all - the claimed classification is unreachable. -/
theorem c2_power_shorthand_dead
    (ev : String → List Char → Option (List Char)) :
    preprocessText "sin^2(x) + cos^2(x)" = "sin**2(x) + cos**2(x)" ∧
    containsSub ['^'] (preprocessText "sin^2(x) + cos^2(x)").data = false ∧
    subPow (preprocessText "sin^2(x) + cos^2(x)").data
      = (preprocessText "sin^2(x) + cos^2(x)").data ∧
    subPow "sin^2(x)".toList = "sin(x)**2".toList ∧
    resolveStr ev "sin^2(x) + cos^2(x)"
      = "__TEMP_*0*__**2*(x) + __TEMP_*1*__**2*(x)" ∧
    containsSub "sin".toList (resolveStr ev "sin^2(x) + cos^2(x)").data = false := by
  have hfp : funcPass ev "sin**2(x) + cos**2(x)".toList
      = "sin**2(x) + cos**2(x)".toList := by
    rw [funcPass_unfold,
      show subFunc "log10".toList (ev "log10") "sin**2(x) + cos**2(x)".toList
        = "sin**2(x) + cos**2(x)".toList from rfl,
      show subFunc "log".toList (ev "log") "sin**2(x) + cos**2(x)".toList
        = "sin**2(x) + cos**2(x)".toList from rfl,
      show subFunc "sqrt".toList (ev "sqrt") "sin**2(x) + cos**2(x)".toList
        = "sin**2(x) + cos**2(x)".toList from rfl,
      show subFunc "sin".toList (ev "sin") "sin**2(x) + cos**2(x)".toList
        = "sin**2(x) + cos**2(x)".toList from rfl,
      show subFunc "cos".toList (ev "cos") "sin**2(x) + cos**2(x)".toList
        = "sin**2(x) + cos**2(x)".toList from rfl,
      show subFunc "tan".toList (ev "tan") "sin**2(x) + cos**2(x)".toList
        = "sin**2(x) + cos**2(x)".toList from rfl,
      show subFunc "factorial".toList (ev "factorial") "sin**2(x) + cos**2(x)".toList
        = "sin**2(x) + cos**2(x)".toList from rfl,
      show subFunc "exp".toList (ev "exp") "sin**2(x) + cos**2(x)".toList
        = "sin**2(x) + cos**2(x)".toList from rfl]
  have hres : resolveStr ev "sin^2(x) + cos^2(x)"
      = "__TEMP_*0*__**2*(x) + __TEMP_*1*__**2*(x)" := by
    show (⟨handleNotationL ev (preprocessL "sin^2(x) + cos^2(x)".data)⟩ : String) = _
    rw [show preprocessL "sin^2(x) + cos^2(x)".data
        = "sin**2(x) + cos**2(x)".toList from rfl,
      handleNotationL_eq ev _ _ hfp]
    rfl
  exact ⟨rfl, by decide, by decide, by decide, hres, by rw [hres]; decide⟩

/-- C3 counterexample: the claim asserts that lnx normalizes to log applied
to x via the alias rule.  In fact the word-boundary pattern cannot match
inside lnx, the lexical normalizer leaves lnx unchanged, and the resolver
then mangles it through the protection pass, so the final token stream is
neither log(x) nor any log application (the oracle is never consulted for
this parenthesis-free input). -/
theorem c3_lnx_counterexample :
    preprocessText "lnx" = "lnx" ∧
    resolveStr evNone "lnx" = "__TEMP_*0*__x" ∧
    resolveStr evNone "lnx" ≠ "log(x)" := by
  refine ⟨rfl, rfl, ?_⟩
  decide

/-- C3 amended: function-alias rewriting with word-boundary matching is
applied by the lexical normalizer before any multiplication insertion:
lg(100) becomes log10(100), which never contains a plain log application,
and which the resolver's eager-evaluation pass (whose log10 pattern runs
before the log pattern) hands to the engine as a log10 call, yielding its
numeric value; lnx, however, has no word boundary between ln and x, so the
alias pass leaves it untouched and it is not tokenized as log applied
to x. -/
theorem c3_alias_word_boundary
    (ev : String → List Char → Option (List Char))
    (hev : ev "log10" "100".toList = some "2".toList) :
    preprocessText "lg(100)" = "log10(100)" ∧
    containsSub "log(".toList (preprocessText "lg(100)").data = false ∧
    resolveStr ev "lg(100)" = "2" ∧
    preprocessText "lnx" = "lnx" := by
  have hev' : ev "log10" ['1', '0', '0'] = some ['2'] := hev
  have hl10 : subFunc "log10".toList (ev "log10") "log10(100)".toList
      = "2".toList := by
    have key : subFunc "log10".toList (ev "log10") "log10(100)".toList
        = (match ev "log10" ['1', '0', '0'] with
           | some r => r ++ ([] : List Char)
           | none => "log10(100)".toList) := rfl
    rw [key, hev']
    rfl
  have hfp : funcPass ev "log10(100)".toList = "2".toList := by
    rw [funcPass_unfold, hl10,
      show subFunc "log".toList (ev "log") "2".toList = "2".toList from rfl,
      show subFunc "sqrt".toList (ev "sqrt") "2".toList = "2".toList from rfl,
      show subFunc "sin".toList (ev "sin") "2".toList = "2".toList from rfl,
      show subFunc "cos".toList (ev "cos") "2".toList = "2".toList from rfl,
      show subFunc "tan".toList (ev "tan") "2".toList = "2".toList from rfl,
      show subFunc "factorial".toList (ev "factorial") "2".toList = "2".toList from rfl,
      show subFunc "exp".toList (ev "exp") "2".toList = "2".toList from rfl]
  have hres : resolveStr ev "lg(100)" = "2" := by
    show (⟨handleNotationL ev (preprocessL "lg(100)".data)⟩ : String) = _
    rw [show preprocessL "lg(100)".data = "log10(100)".toList from rfl,
      handleNotationL_eq ev _ _ hfp]
    rfl
  exact ⟨rfl, by decide, hres, rfl⟩

/-- Witness for C3 at an oracle evaluating the log10 call of 100 to 2, as
the engine does for a numeric argument. -/
theorem c3_alias_word_boundary_witness :
    preprocessText "lg(100)" = "log10(100)" ∧
    containsSub "log(".toList (preprocessText "lg(100)").data = false ∧
    resolveStr (fun n a => if n = "log10" && a = "100".toList
      then some "2".toList else none) "lg(100)" = "2" ∧
    preprocessText "lnx" = "lnx" :=
  c3_alias_word_boundary
    (fun n a => if n = "log10" && a = "100".toList then some "2".toList else none)
    rfl

/-- C9 counterexample: normalizing the two-character input consisting of
the Cyrillic letter ve followed by Latin h gives ch (the homoglyph pass
rewrites ve to c after the alias pass has already run), and normalizing a
second time rewrites the freshly created alias token ch to cosh, so the
lexical normalizer is not idempotent. -/
theorem c9_not_idempotent_counterexample :
    preprocessText (preprocessText "вh") ≠ preprocessText "вh" := by
  decide

/-! ## The staged pipeline: simplifier, classifier, formatter, driver -/

/-- Abstract interface to the external symbolic engine (sympy).  Every
operation the source wraps in try/except, or whose exception would be
caught by an enclosing handler, returns an Option: none stands for a
raised exception.  freeSymbolsE lists the printed names of the free
symbols; strE is the str rendering of an expression. -/
structure Engine (α : Type) where
  strE : α → String
  isDerivativeE : α → Bool
  isIntegralE : α → Bool
  isEqE : α → Bool
  isSymbolE : α → Bool
  freeSymbolsE : α → List String
  sympifyE : String → Option α
  simplifyE : α → Option α
  expandE : α → Option α
  factorE : α → Option α
  cancelE : α → Option α
  collectE : α → Option α
  trigsimpE : α → Option α
  logcombineE : α → Option α
  powsimpE : α → Option α
  expandLogE : α → Option α
  logExpReplaceE : α → Option α
  countOpsE : α → Option Nat
  doitE : α → Option α
  solveE : α → List String → Option (List α)
  solveIneqE : α → String → Option α
  evalfE : α → Option α
  latexE : α → Option String
  prettyE : α → Option String
  prettyListE : List α → Option String

/-- Scanner for the first match of the identity patterns of step2_simplify,
re.search of outer backslash-( inner backslash-( bracket-not-rparen-plus
backslash-) backslash-): at the leftmost occurrence of the literal prefix,
the group is the maximal nonempty run of non-rparen characters, and two
closing parentheses must follow; otherwise scanning resumes one character
later. -/
def extractNestedGo (pre : List Char) : Nat → List Char → Option (List Char)
  | 0, _ => none
  | _ + 1, [] => none
  | fuel + 1, c :: cs =>
    if pre.isPrefixOf (c :: cs) then
      match ((c :: cs).drop pre.length).takeWhile (· ≠ ')'),
            ((c :: cs).drop pre.length).dropWhile (· ≠ ')') with
      | a :: as_, ')' :: ')' :: _ => some (a :: as_)
      | _, _ => extractNestedGo pre fuel cs
    else extractNestedGo pre fuel cs

/-- First match of an identity pattern in a string. -/
def extractNested (pre s : List Char) : Option (List Char) :=
  extractNestedGo pre (s.length + 1) s

/-- Result record of stage 2 (step2_simplify): success flag, the chosen
expression, the filtered step trace, and the collected error strings. -/
structure SimpRes (α : Type) where
  success : Bool
  simplified : Option α
  steps : List (String × α)
  errors : List String

/-- Strategy names with absolute selection priority (main.py line 730), in
priority order. -/
def prioritySteps : List String :=
  ["log_exp_identity", "exp_log_identity", "log_exp_replace"]

/-- Function names that trigger the trigonometric strategy (line 699). -/
def trigFuncNames : List String := ["sin", "cos", "tan", "sec", "csc", "cot"]

/-- Function names that trigger the logarithmic block (line 706). -/
def logFuncNames : List String := ["log", "exp", "ln"]

/-- The log(exp(..)) identity fast path of step2_simplify (lines 642-654):
gated on the literal substring, the regular expression extracts the inner
text; if it is nonempty after stripping, sympify is attempted and a
successful parse is recorded under the name log_exp_identity. -/
def stepL1 (e : Engine α) (x : α) : List (String × α) :=
  if containsSub "log(exp(".toList (e.strE x).toList then
    match extractNested "log(exp(".toList (e.strE x).toList with
    | some content =>
      if pyStrip content ≠ [] then
        match e.sympifyE (String.mk content) with
        | some v => [("log_exp_identity", v)]
        | none => []
      else []
    | none => []
  else []

/-- The exp(log(..)) identity fast path of step2_simplify (lines 657-668). -/
def stepL2 (e : Engine α) (x : α) : List (String × α) :=
  if containsSub "exp(log(".toList (e.strE x).toList then
    match extractNested "exp(log(".toList (e.strE x).toList with
    | some content =>
      if pyStrip content ≠ [] then
        match e.sympifyE (String.mk content) with
        | some v => [("exp_log_identity", v)]
        | none => []
      else []
    | none => []
  else []

/-- The four generic strategies of step2_simplify (lines 670-689), each
recording the original expression when its engine call raises. -/
def stepBasics (e : Engine α) (x : α) : List (String × α) :=
  [("basic", (e.simplifyE x).getD x),
   ("expanded", (e.expandE x).getD x),
   ("factored", (e.factorE x).getD x),
   ("cancelled", (e.cancelE x).getD x)]

/-- The collect strategy (lines 691-696), only attempted when the
expression has free symbols. -/
def stepCollected (e : Engine α) (x : α) : List (String × α) :=
  if e.freeSymbolsE x ≠ [] then [("collected", (e.collectE x).getD x)] else []

/-- The trigonometric strategy (lines 698-703), only attempted when a trig
function name occurs in the textual form. -/
def stepTrig (e : Engine α) (x : α) : List (String × α) :=
  if trigFuncNames.any (fun n => containsSub n.toList (e.strE x).toList) then
    [("trigsimp", (e.trigsimpE x).getD x)]
  else []

/-- The logarithmic block (lines 705-720): logcombine, powsimp and
expand_log are recorded in order inside a single try, so the first raising
call ends the block; the pattern-based log_exp_replace only runs when the
literal log(exp( occurs. -/
def stepLogs (e : Engine α) (x : α) : List (String × α) :=
  if logFuncNames.any (fun n => containsSub n.toList (e.strE x).toList) then
    match e.logcombineE x with
    | none => []
    | some a =>
      ("logsimp", a) ::
        match e.powsimpE x with
        | none => []
        | some b =>
          ("powersimp", b) ::
            match e.expandLogE x with
            | none => []
            | some cc =>
              ("expand_log", cc) ::
                (if containsSub "log(exp(".toList (e.strE x).toList then
                  match e.logExpReplaceE x with
                  | some d => [("log_exp_replace", d)]
                  | none => []
                else [])
  else []

/-- The ordered step dictionary built by step2_simplify for an expression
that is neither a Derivative nor an Integral, in insertion order. -/
def buildSteps (e : Engine α) (x : α) : List (String × α) :=
  stepL1 e x ++ stepL2 e x ++ stepBasics e x ++ stepCollected e x ++
    stepTrig e x ++ stepLogs e x

/-- Inner priority-selection loop of step2_simplify (lines 733-740): for
each priority name in order, the inner loop sets the current result to the
first candidate carrying that name (keeping it unchanged when none does),
and the outer loop stops as soon as the current result differs from the
input expression. -/
def priorityLoop [DecidableEq α] (x : α) (cands : List (String × α)) :
    List String → α → α
  | [], cur => cur
  | p :: ps, cur =>
    let cur' := match cands.find? (fun q => q.1 == p) with
      | some q => q.2
      | none => cur
    if cur' ≠ x then cur' else priorityLoop x cands ps cur'

/-- Python's min over key-value pairs (line 753): fold that replaces the
current best only on a strictly smaller key, so the first minimum wins. -/
def pyMinGo (best : Nat × α) : List (Nat × α) → Nat × α
  | [] => best
  | q :: qs => pyMinGo (if q.1 < best.1 then q else best) qs

/-- Candidate selection of step2_simplify (lines 722-758): discard steps
whose result equals the input (the is-not-None guard of line 725 is
vacuous here since every recorded step carries a value), run the priority
loop, and otherwise pick the candidate with the fewest operations, the
count falling back to the length of the textual form when count_ops
raises. -/
def codeSelect [DecidableEq α] (e : Engine α) (x : α)
    (steps : List (String × α)) : α :=
  let cands := steps.filter (fun p => decide (p.2 ≠ x))
  if cands.isEmpty then x
  else
    let afterP := priorityLoop x cands prioritySteps x
    if afterP ≠ x then afterP
    else
      match cands.map (fun p => ((e.countOpsE p.2).getD (e.strE p.2).length, p.2)) with
      | [] => x
      | v :: vs => (pyMinGo v vs).2

/-- step2_simplify (main.py lines 618-771).  A Derivative or Integral is
returned unchanged; the preserved-note dictionary set at line 636 is then
overwritten by the display filter of lines 761-764 applied to the still
empty steps dictionary, so the recorded trace is empty.  Any other
expression goes through candidate construction and selection, and the
trace keeps the steps that changed the expression (value and rendering
both differing). -/
def step2Simplify [DecidableEq α] (e : Engine α) (x : α) : SimpRes α :=
  if e.isDerivativeE x || e.isIntegralE x then
    { success := true, simplified := some x, steps := [], errors := [] }
  else
    let steps := buildSteps e x
    { success := true
      simplified := some (codeSelect e x steps)
      steps := steps.filter
        (fun p => decide (p.2 ≠ x) && decide (e.strE p.2 ≠ e.strE x))
      errors := [] }

/-- Stage 2 on the parsed payload of stage 1: a failed parse hands None
through (process_user_input line 955), on which the attribute access
expr.free_symbols of line 692 raises; the outer except of line 767 records
the error and leaves simplified_expression = None with an empty trace. -/
def step2OnParsed [DecidableEq α] (e : Engine α) : Option α → SimpRes α
  | some x => step2Simplify e x
  | none =>
    { success := false, simplified := none, steps := []
      errors := ["AttributeError: free_symbols"] }

/-- Solution payload of stage 3: a single expression or a list of
solutions. -/
inductive Sol (α : Type) where
  | single : α → Sol α
  | list : List α → Sol α

/-- Result record of stage 3 (step3_solve). -/
structure SolveRes (α : Type) where
  success : Bool
  problemType : Option String
  solutions : Option (Sol α)
  errors : List String

/-- Outer exception handler of step3_solve (lines 857-865): record the
error, retry with plain simplification as a simplification result; when
even that raises, the result keeps whatever problem type was assigned
before the exception and carries no solutions. -/
def solveFallback (e : Engine α) (x : α) (pt : Option String) : SolveRes α :=
  match e.simplifyE x with
  | some v =>
    { success := true, problemType := some "simplification"
      solutions := some (Sol.single v), errors := ["SolveError"] }
  | none =>
    { success := false, problemType := pt, solutions := none
      errors := ["SolveError"] }

/-- Relational-operator probe of line 800 over the textual form. -/
def hasRelOp (s : List Char) : Bool :=
  containsSub ['>'] s || containsSub ['<'] s ||
    containsSub ">=".toList s || containsSub "<=".toList s

/-- The bare-expression branch of step3_solve (lines 814-853): re-simplify;
when log or exp occurs in the textual form, build the combined
logcombine-then-powsimp form and keep it if it has strictly fewer
operations; then classify as simplification (literal bare symbol, or an
actual simplification) or fall through to solving the expression equated
to zero.  Every engine failure inside the branch raises into the outer
except and lands in the fallback, with the problem type recorded up to
that point. -/
def bareBranch [DecidableEq α] (e : Engine α) (x : α) (frees : List String) :
    SolveRes α :=
  match e.simplifyE x with
  | none => solveFallback e x none
  | some simplified0 =>
    let simplStep : Option α :=
      if containsSub "log".toList (e.strE x).toList ||
          containsSub "exp".toList (e.strE x).toList then
        match e.logcombineE x with
        | none => none
        | some lc =>
          match e.powsimpE lc with
          | none => none
          | some ls =>
            match e.countOpsE ls, e.countOpsE simplified0 with
            | some c1, some c2 => some (if c1 < c2 then ls else simplified0)
            | _, _ => none
      else some simplified0
    match simplStep with
    | none => solveFallback e x none
    | some simplified =>
      let isSimpleVar :=
        frees.length == 1 &&
          decide ((pyStrip (e.strE x).toList).length ≤ 3) &&
          frees.contains (e.strE x) && e.isSymbolE x
      let esRes : Option Bool :=
        if simplified = x then some false
        else
          match e.countOpsE simplified, e.countOpsE x with
          | some a, some b =>
            some (decide (a < b) || decide (e.strE simplified ≠ e.strE x))
          | _, _ => none
      match esRes with
      | none => solveFallback e x none
      | some exprSimplified =>
        if isSimpleVar then
          { success := true, problemType := some "simplification"
            solutions := some (Sol.single x), errors := [] }
        else if exprSimplified then
          { success := true, problemType := some "simplification"
            solutions := some (Sol.single simplified), errors := [] }
        else
          match frees with
          | [v] =>
            (match e.solveE x [v] with
             | some l =>
               { success := true, problemType := some "equation_zero"
                 solutions := some (Sol.list l), errors := [] }
             | none => solveFallback e x (some "equation_zero"))
          | _ =>
            match e.solveE x frees with
            | some l =>
              { success := true, problemType := some "equation_zero"
                solutions := some (Sol.list l), errors := [] }
            | none => solveFallback e x (some "equation_zero")

/-- step3_solve (main.py lines 773-867): the object type is checked first
(Derivative, then Integral, then Eq), then the textual relational probe,
then the no-free-symbols numeric evaluation, and finally the
bare-expression branch.  The problem type is assigned before the
corresponding engine call, so a failing call falls back with that type
already recorded.  An inequality in more than one variable is reported
with success and no solutions (lines 800-808 assign none). -/
def step3Solve [DecidableEq α] (e : Engine α) (x : α) : SolveRes α :=
  if e.isDerivativeE x then
    match e.doitE x with
    | some v =>
      { success := true, problemType := some "derivative"
        solutions := some (Sol.single v), errors := [] }
    | none => solveFallback e x (some "derivative")
  else if e.isIntegralE x then
    match e.doitE x with
    | some v =>
      { success := true, problemType := some "integral"
        solutions := some (Sol.single v), errors := [] }
    | none => solveFallback e x (some "integral")
  else if e.isEqE x then
    match e.solveE x (e.freeSymbolsE x) with
    | some l =>
      { success := true, problemType := some "equation"
        solutions := some (Sol.list l), errors := [] }
    | none => solveFallback e x (some "equation")
  else if hasRelOp (e.strE x).toList then
    match e.freeSymbolsE x with
    | [v] =>
      (match e.solveIneqE x v with
       | some r =>
         { success := true, problemType := some "inequality"
           solutions := some (Sol.single r), errors := [] }
       | none =>
         match e.solveE x [v] with
         | some l =>
           { success := true, problemType := some "inequality"
             solutions := some (Sol.list l), errors := [] }
         | none => solveFallback e x (some "inequality"))
    | _ =>
      { success := true, problemType := some "inequality"
        solutions := none, errors := [] }
  else if (e.freeSymbolsE x).isEmpty then
    match e.evalfE x with
    | some v =>
      { success := true, problemType := some "numerical_evaluation"
        solutions := some (Sol.single v), errors := [] }
    | none => solveFallback e x (some "numerical_evaluation")
  else
    bareBranch e x (e.freeSymbolsE x)

/-- Stage 3 on the expression chosen by stage 2: when stage 2 failed and
handed None through, the attribute access of line 785 raises, the fallback
simplification of line 861 raises on the same None, and the stage reports
failure with no solutions. -/
def step3OnParsed [DecidableEq α] (e : Engine α) : Option α → SolveRes α
  | some x => step3Solve e x
  | none =>
    { success := false, problemType := none, solutions := none
      errors := ["AttributeError: free_symbols"] }

/-- Result record of stage 4 (step4_format_output). -/
structure FormatRes where
  success : Bool
  numerical : Option String
  latexOut : Option String
  pretty : Option String
  errors : List String
deriving DecidableEq

/-- Python's str of a list of expressions, used when the solution payload
is a list (which has no evalf attribute). -/
def strOfList (e : Engine α) (l : List α) : String :=
  "[" ++ String.intercalate ", " (l.map e.strE) ++ "]"

/-- step4_format_output (main.py lines 869-914).  A missing solution skips
the whole body: success stays False, the three outputs stay None and no
error is recorded.  A single expression is numerically rendered through
evalf (whose exception aborts the stage into the outer handler before any
output field is set), then rendered to markup and pretty text with
per-call fallbacks to the plain string; a solution list is rendered
element-wise with fallbacks and joined. -/
def step4Format (e : Engine α) (sols : Option (Sol α))
    (_pt : Option String) : FormatRes :=
  match sols with
  | none =>
    { success := false, numerical := none, latexOut := none
      pretty := none, errors := [] }
  | some (Sol.single a) =>
    match e.evalfE a with
    | none =>
      { success := false, numerical := none, latexOut := none
        pretty := none, errors := ["FormatError"] }
    | some v =>
      { success := true
        numerical := some (e.strE v)
        latexOut := some ((e.latexE a).getD (e.strE a))
        pretty := some ((e.prettyE a).getD (e.strE a))
        errors := [] }
  | some (Sol.list l) =>
    { success := true
      numerical := some (strOfList e l)
      latexOut := some (String.intercalate ", "
        (l.map (fun a => (e.latexE a).getD (e.strE a))))
      pretty := some ((e.prettyListE l).getD (strOfList e l))
      errors := [] }

/-- Result record of stage 1 (step1_parse_and_validate), abstracted: the
parsing stage is external engine work, and only its outcome flows into the
driver. -/
structure Stage1Res (α : Type) where
  success : Bool
  parsed : Option α
  errors : List String

/-- Final record assembled by process_user_input. -/
structure FinalRes (α : Type) where
  success : Bool
  problemType : Option String
  stage1 : Stage1Res α
  stage2 : Option (SimpRes α)
  stage3 : Option (SolveRes α)
  finalAnswer : Option FormatRes

/-- process_user_input (main.py lines 916-1025).  The early return on a
failed stage 1 sits inside the step-display block (lines 938-953): with
step display on, a failed parse aborts the request with success still
False; with step display off the early return is skipped and the remaining
stages run on stage1's (absent) parsed expression, after which line 1008
marks the request successful.  The assistant hooks only print text
(OllamaAI.chat catches every transport error internally), so they never
change the control flow modelled here. -/
def processUserInput [DecidableEq α] (e : Engine α) (st1 : Stage1Res α)
    (showSteps : Bool) : FinalRes α :=
  if showSteps && !st1.success then
    { success := false, problemType := none, stage1 := st1
      stage2 := none, stage3 := none, finalAnswer := none }
  else
    let s2 := step2OnParsed e st1.parsed
    let s3 := step3OnParsed e s2.simplified
    let s4 := step4Format e s3.solutions s3.problemType
    { success := true, problemType := s3.problemType, stage1 := st1
      stage2 := some s2, stage3 := some s3, finalAnswer := some s4 }

/-! ## Selection-policy vocabulary written from the specification -/

/-- Written from the specification of claim C5: among the surviving
candidates, the first one whose strategy name lies in the priority set,
scanning the priority names in their declared order. -/
def specPriorityPick [DecidableEq α] (cands : List (String × α)) : Option α :=
  prioritySteps.findSome? (fun p =>
    (cands.find? (fun q => q.1 == p)).map (fun q => q.2))

/-- Written from the specification of claim C5: the first element of the
list achieving the minimal key, so that ties are broken in favour of the
element produced first. -/
def firstMinBy (f : β → Nat) : List β → Option β
  | [] => none
  | b :: bs =>
    match firstMinBy f bs with
    | none => some b
    | some c => some (if f b ≤ f c then b else c)

/-- The priority loop of the source selects exactly the first candidate
whose name occurs in the priority list, in priority order, whenever all
candidates differ from the input expression. -/
theorem priorityLoop_eq [DecidableEq α] (x : α) (cands : List (String × α))
    (hc : ∀ p ∈ cands, p.2 ≠ x) :
    ∀ ps : List String,
      priorityLoop x cands ps x = (ps.findSome? (fun p =>
        (cands.find? (fun q => q.1 == p)).map (fun q => q.2))).getD x := by
  intro ps
  induction ps with
  | nil => rfl
  | cons p ps ih =>
    unfold priorityLoop
    cases hfind : cands.find? (fun q => q.1 == p) with
    | none =>
      simp only [hfind, List.findSome?_cons, Option.map_none', ite_self]
      rw [if_neg (by simp), ih]
    | some q =>
      have hq : q.2 ≠ x := hc q (List.mem_of_find?_eq_some hfind)
      simp only [hfind, List.findSome?_cons, Option.map_some']
      rw [if_pos hq]
      rfl

/-- Python's min (first minimum wins) agrees with the first-minimum
selector over the accumulator seeded with the first element. -/
theorem pyMinGo_eq_firstMinBy (l : List (Nat × α)) :
    ∀ best : Nat × α, pyMinGo best l = (firstMinBy Prod.fst (best :: l)).getD best := by
  induction l with
  | nil => intro best; rfl
  | cons q qs ih =>
    intro best
    have hstep : pyMinGo best (q :: qs) = pyMinGo (if q.1 < best.1 then q else best) qs := rfl
    rw [hstep, ih]
    simp only [firstMinBy]
    cases hqs : firstMinBy Prod.fst qs with
    | none =>
      dsimp only
      simp only [Option.getD_some]
      by_cases h : q.1 < best.1
      · rw [if_pos h, if_neg (show ¬ best.1 ≤ q.1 by omega)]
      · rw [if_neg h, if_pos (show best.1 ≤ q.1 by omega)]
    | some d =>
      dsimp only
      simp only [Option.getD_some]
      by_cases h : q.1 < best.1
      · rw [if_pos h]
        by_cases h2 : q.1 ≤ d.1
        · rw [if_pos h2, if_neg (show ¬ best.1 ≤ q.1 by omega)]
        · rw [if_neg h2, if_neg (show ¬ best.1 ≤ d.1 by omega)]
      · rw [if_neg h]
        by_cases h2 : q.1 ≤ d.1
        · rw [if_pos h2, if_pos (show best.1 ≤ d.1 by omega), if_pos (show best.1 ≤ q.1 by omega)]
        · rw [if_neg h2]

/-- Taking the first minimum commutes with pairing each element with its
key. -/
theorem firstMinBy_map (f : (String × α) → Nat) (l : List (String × α)) :
    firstMinBy Prod.fst (l.map (fun p => (f p, p.2)))
      = (firstMinBy f l).map (fun p => (f p, p.2)) := by
  induction l with
  | nil => rfl
  | cons p ps ih =>
    simp only [List.map_cons, firstMinBy, ih]
    cases hps : firstMinBy f ps with
    | none => rfl
    | some d =>
      simp only [Option.map_some']
      show some (if f p ≤ f d then (f p, p.2) else (f d, d.2)) = _
      split <;> rfl

/-- When the candidate list starts with a log_exp_identity candidate
differing from the input, selection returns that candidate whatever the
remaining candidates are. -/
theorem codeSelect_priority_head [DecidableEq α] (e : Engine α) (x r : α)
    (L : List (String × α)) (hr : r ≠ x) :
    codeSelect e x (("log_exp_identity", r) :: L) = r := by
  have hfilter : (("log_exp_identity", r) :: L).filter (fun p => decide (p.2 ≠ x))
      = ("log_exp_identity", r) :: L.filter (fun p => decide (p.2 ≠ x)) := by
    simp [List.filter, hr]
  have hloop : priorityLoop x (("log_exp_identity", r) :: L.filter (fun p => decide (p.2 ≠ x)))
      prioritySteps x = r := by
    unfold prioritySteps priorityLoop
    simp only [List.find?, beq_self_eq_true]
    rw [if_pos hr]
  simp only [codeSelect, hfilter, List.isEmpty_cons, Bool.false_eq_true, if_false, hloop,
    if_pos hr]

/-! ## Claim theorems for the staged pipeline -/

/-- C4: when the simplifier receives an expression (not a derivative or
integral) whose textual form is log(exp(x)) and the engine parses the
extracted inner text x back to a value different from the input, the
identity fast path fires and its candidate is selected, whatever every
generic strategy returns: the simplified expression is exactly the parsed
symbol. -/
theorem c4_log_exp_identity_priority [DecidableEq α] (e : Engine α) (x xs : α)
    (hstr : e.strE x = "log(exp(x))")
    (hsym : e.sympifyE "x" = some xs)
    (hne : xs ≠ x)
    (hd : e.isDerivativeE x = false)
    (hi : e.isIntegralE x = false) :
    (step2Simplify e x).simplified = some xs := by
  have hsym' : e.sympifyE (String.mk ['x']) = some xs := hsym
  have hL1 : stepL1 e x = [("log_exp_identity", xs)] := by
    have key : stepL1 e x = (match e.sympifyE (String.mk ['x']) with
        | some v => [("log_exp_identity", v)]
        | none => ([] : List (String × α))) := by
      unfold stepL1
      rw [hstr]
      rfl
    rw [key, hsym']
  have hsteps : buildSteps e x = ("log_exp_identity", xs) ::
      (stepL2 e x ++ stepBasics e x ++ stepCollected e x ++ stepTrig e x ++ stepLogs e x) := by
    unfold buildSteps
    rw [hL1]
    rfl
  unfold step2Simplify
  rw [hd, hi]
  simp only [Bool.or_self, Bool.false_eq_true, if_false]
  rw [hsteps]
  rw [codeSelect_priority_head e x xs _ hne]

/-- C5: the candidate selection of the simplifier discards candidates
identical to the input; when a surviving candidate carries a priority
strategy name, the first such candidate in priority order is chosen; when
none does and the operation count succeeds on every survivor, the survivor
with the fewest operations is chosen, ties resolved in favour of the
candidate produced first; and with no survivor the input expression is
returned. -/
theorem c5_candidate_selection_policy [DecidableEq α] (e : Engine α) (x : α)
    (steps : List (String × α)) :
    (steps.filter (fun p => decide (p.2 ≠ x)) = [] → codeSelect e x steps = x) ∧
    (∀ r, specPriorityPick (steps.filter (fun p => decide (p.2 ≠ x))) = some r →
      codeSelect e x steps = r) ∧
    (∀ f : (String × α) → Nat,
      (∀ p ∈ steps.filter (fun p => decide (p.2 ≠ x)), e.countOpsE p.2 = some (f p)) →
      specPriorityPick (steps.filter (fun p => decide (p.2 ≠ x))) = none →
      codeSelect e x steps =
        ((firstMinBy f (steps.filter (fun p => decide (p.2 ≠ x)))).map
          (fun p => p.2)).getD x) := by
  set cands := steps.filter (fun p => decide (p.2 ≠ x)) with hcands
  have hmem : ∀ p ∈ cands, p.2 ≠ x := by
    intro p hp
    have := List.mem_filter.mp (hcands ▸ hp)
    simpa using this.2
  refine ⟨?_, ?_, ?_⟩
  · intro h
    unfold codeSelect
    rw [← hcands, h]
    rfl
  · intro r hr
    have hne : cands ≠ [] := by
      intro h0
      rw [h0] at hr
      rw [show specPriorityPick ([] : List (String × α)) = none from rfl] at hr
      cases hr
    unfold codeSelect
    rw [← hcands]
    rw [if_neg (by simp [List.isEmpty_iff, hne])]
    have hloop := priorityLoop_eq x cands hmem prioritySteps
    rw [show (prioritySteps.findSome? (fun p =>
        (cands.find? (fun q => q.1 == p)).map (fun q => q.2))) = specPriorityPick cands
      from rfl, hr] at hloop
    rw [hloop]
    simp only [Option.getD_some]
    have hrx : r ≠ x := by
      obtain ⟨p, hp, hfp⟩ := List.exists_of_findSome?_eq_some hr
      cases hfind : cands.find? (fun q => q.1 == p) with
      | none => rw [hfind] at hfp; simp at hfp
      | some q =>
        rw [hfind] at hfp
        simp at hfp
        exact hfp ▸ hmem q (List.mem_of_find?_eq_some hfind)
    rw [if_pos hrx]
  · intro f hf hnone
    unfold codeSelect
    rw [← hcands]
    cases hc : cands with
    | nil =>
      simp only [hc, List.isEmpty_nil, if_true]
      rfl
    | cons c cs =>
      rw [if_neg (by simp [hc])]
      have hloop := priorityLoop_eq x cands hmem prioritySteps
      rw [show (prioritySteps.findSome? (fun p =>
          (cands.find? (fun q => q.1 == p)).map (fun q => q.2))) = specPriorityPick cands
        from rfl, hnone] at hloop
      rw [hc] at hloop
      rw [hloop]
      simp only [Option.getD_none]
      rw [if_neg (by simp)]
      have hmapc : (c :: cs).map (fun p => ((e.countOpsE p.2).getD (e.strE p.2).length, p.2))
          = (c :: cs).map (fun p => (f p, p.2)) := by
        apply List.map_congr_left
        intro a ha
        rw [hf a (hc ▸ ha)]
        rfl
      rw [hmapc]
      simp only [List.map_cons]
      show (pyMinGo (f c, c.2) (List.map (fun p => (f p, p.2)) cs)).2 = _
      rw [pyMinGo_eq_firstMinBy]
      rw [show ((f c, c.2) :: List.map (fun p => (f p, p.2)) cs)
          = (c :: cs).map (fun p => (f p, p.2)) from rfl]
      rw [firstMinBy_map]
      cases hfm : firstMinBy f (c :: cs) with
      | none =>
        exfalso
        unfold firstMinBy at hfm
        cases h2 : firstMinBy f cs <;> rw [h2] at hfm <;> simp at hfm
      | some m => simp [hfm]

/-- C6: an expression tagged Derivative or Integral passes stage 2
untouched: the result carries the same expression with an empty trace (for
every engine, so no strategy is ever consulted), the pipeline forwards
exactly that expression into stage 3, and stage 3 answers the derivative
category by explicitly evaluating it. -/
theorem c6_derivative_integral_preserved [DecidableEq α] (e : Engine α) (x : α) (b : Bool)
    (h : (e.isDerivativeE x || e.isIntegralE x) = true) :
    step2Simplify e x =
      { success := true, simplified := some x, steps := [], errors := [] } ∧
    (processUserInput e ⟨true, some x, []⟩ b).stage2 =
      some { success := true, simplified := some x, steps := [], errors := [] } ∧
    (processUserInput e ⟨true, some x, []⟩ b).stage3 = some (step3Solve e x) ∧
    (e.isDerivativeE x = true → ∀ v, e.doitE x = some v →
      step3Solve e x = { success := true, problemType := some "derivative"
                         solutions := some (Sol.single v), errors := [] }) := by
  have h2 : step2Simplify e x =
      { success := true, simplified := some x, steps := [], errors := [] } := by
    unfold step2Simplify
    rw [if_pos h]
  refine ⟨h2, ?_, ?_, ?_⟩
  · show (processUserInput e ⟨true, some x, []⟩ b).stage2 = _
    unfold processUserInput
    rw [if_neg (by simp)]
    show some (step2OnParsed e (some x)) = _
    rw [show step2OnParsed e (some x) = step2Simplify e x from rfl, h2]
  · unfold processUserInput
    rw [if_neg (by simp)]
    show some (step3OnParsed e (step2OnParsed e (some x)).simplified) = _
    rw [show step2OnParsed e (some x) = step2Simplify e x from rfl, h2]
    rfl
  · intro hd v hv
    unfold step3Solve
    rw [hd, hv]
    rfl

/-- C7: in the step-display mode used by both call sites of the program, a
failed parse-and-validate stage aborts the request, leaving it marked
unsuccessful with no later stage run; and when stage 1 succeeds the
request always completes successfully with a format record present,
whatever the engine does in the later stages (every strategy, solver and
renderer may fail). -/
theorem c7_only_parse_failure_aborts [DecidableEq α] (e : Engine α) (st1 : Stage1Res α) :
    (st1.success = false →
      processUserInput e st1 true =
        { success := false, problemType := none, stage1 := st1
          stage2 := none, stage3 := none, finalAnswer := none }) ∧
    (st1.success = true →
      (processUserInput e st1 true).success = true ∧
      (processUserInput e st1 true).finalAnswer =
        some (step4Format e
          (step3OnParsed e (step2OnParsed e st1.parsed).simplified).solutions
          (step3OnParsed e (step2OnParsed e st1.parsed).simplified).problemType)) := by
  constructor
  · intro h
    unfold processUserInput
    rw [if_pos (by simp [h])]
  · intro h
    unfold processUserInput
    rw [if_neg (by simp [h])]
    exact ⟨rfl, rfl⟩

/-- C8: a failing trigonometric strategy never aborts stage 2: the stage
still succeeds and returns a chosen expression, and the failed strategy
contributes no candidate (its recorded step equals the input and is
discarded by the candidate filter). -/
theorem c8_strategy_failure_isolated [DecidableEq α] (e : Engine α) (x : α)
    (h : e.trigsimpE x = none) :
    (step2Simplify e x).success = true ∧
    ((step2Simplify e x).simplified).isSome = true ∧
    ∀ r, ("trigsimp", r) ∉ (buildSteps e x).filter (fun p => decide (p.2 ≠ x)) := by
  refine ⟨?_, ?_, ?_⟩
  · unfold step2Simplify
    split <;> rfl
  · unfold step2Simplify
    split <;> rfl
  · intro r hr
    have hmem := (List.mem_filter.mp hr).1
    have hne : r ≠ x := by simpa using (List.mem_filter.mp hr).2
    unfold buildSteps at hmem
    simp only [List.mem_append] at hmem
    rcases hmem with ((((hm | hm) | hm) | hm) | hm) | hm
    · unfold stepL1 at hm
      split at hm
      · split at hm
        · split at hm
          · split at hm <;> simp_all
          · simp at hm
        · simp at hm
      · simp at hm
    · unfold stepL2 at hm
      split at hm
      · split at hm
        · split at hm
          · split at hm <;> simp_all
          · simp at hm
        · simp at hm
      · simp at hm
    · unfold stepBasics at hm
      simp at hm
    · unfold stepCollected at hm
      split at hm <;> simp_all
    · unfold stepTrig at hm
      split at hm
      · simp only [List.mem_singleton] at hm
        have : r = (e.trigsimpE x).getD x := congrArg Prod.snd hm
        rw [h] at this
        exact hne this
      · simp at hm
    · unfold stepLogs at hm
      split at hm
      · split at hm
        · simp at hm
        · simp only [List.mem_cons] at hm
          rcases hm with hm | hm
          · simp at hm
          · split at hm
            · simp at hm
            · simp only [List.mem_cons] at hm
              rcases hm with hm | hm
              · simp at hm
              · split at hm
                · simp at hm
                · simp only [List.mem_cons] at hm
                  rcases hm with hm | hm
                  · simp at hm
                  · split at hm
                    · split at hm <;> simp_all
                    · simp at hm
      · simp at hm

/-- C10: the output formatter invoked with a missing solution reports
failure with all three output fields absent and an empty error list, for
every engine and problem type. -/
theorem c10_format_null_solution (e : Engine α) (pt : Option String) :
    step4Format e none pt =
      { success := false, numerical := none, latexOut := none
        pretty := none, errors := [] } := rfl

/-! ## Concrete engines for the witnesses -/

/-- Concrete engine over strings for witnesses: an expression is its own
rendering, parsing returns the text itself, and every strategy, solver,
metric and renderer fails. -/
def witnessEngine : Engine String where
  strE := id
  isDerivativeE := fun _ => false
  isIntegralE := fun _ => false
  isEqE := fun _ => false
  isSymbolE := fun _ => false
  freeSymbolsE := fun _ => []
  sympifyE := fun s => some s
  simplifyE := fun _ => none
  expandE := fun _ => none
  factorE := fun _ => none
  cancelE := fun _ => none
  collectE := fun _ => none
  trigsimpE := fun _ => none
  logcombineE := fun _ => none
  powsimpE := fun _ => none
  expandLogE := fun _ => none
  logExpReplaceE := fun _ => none
  countOpsE := fun _ => none
  doitE := fun _ => none
  solveE := fun _ _ => none
  solveIneqE := fun _ _ => none
  evalfE := fun _ => none
  latexE := fun _ => none
  prettyE := fun _ => none
  prettyListE := fun _ => none

/-- Variant of the witness engine whose operation count is the length of
the rendering. -/
def opsEngine : Engine String :=
  { witnessEngine with countOpsE := fun s => some s.length }

/-- Variant of the witness engine that tags every expression as a
derivative and evaluates it explicitly to a fixed value. -/
def derivEngine : Engine String :=
  { witnessEngine with
    isDerivativeE := fun _ => true
    doitE := fun _ => some "3*x**2" }

/-- Witness for C4 at a concrete engine and the expression text
log(exp(x)). -/
theorem c4_log_exp_identity_priority_witness :
    (step2Simplify witnessEngine "log(exp(x))").simplified = some "x" :=
  c4_log_exp_identity_priority witnessEngine "log(exp(x))" "x"
    rfl rfl (by decide) rfl rfl

/-- Witness for C5: with no priority candidate, the shortest-rendering
candidate b (one operation under the length metric) beats the earlier
candidate aa. -/
theorem c5_candidate_selection_policy_witness :
    codeSelect opsEngine "x" [("basic", "aa"), ("expanded", "b")] = "b" := by
  have h := (c5_candidate_selection_policy opsEngine "x"
      [("basic", "aa"), ("expanded", "b")]).2.2
    (fun p => p.2.length) (by intro p _; rfl) rfl
  exact h.trans rfl

/-- Witness for C6 at the derivative-tagging engine. -/
theorem c6_derivative_integral_preserved_witness :
    step2Simplify derivEngine "Derivative(x**3, x)" =
      { success := true, simplified := some "Derivative(x**3, x)",
        steps := [], errors := [] } ∧
    step3Solve derivEngine "Derivative(x**3, x)" =
      { success := true, problemType := some "derivative"
        solutions := some (Sol.single "3*x**2"), errors := [] } :=
  ⟨(c6_derivative_integral_preserved derivEngine "Derivative(x**3, x)" true rfl).1,
   (c6_derivative_integral_preserved derivEngine "Derivative(x**3, x)" true rfl).2.2.2
     rfl "3*x**2" rfl⟩

/-- Witness for C7 at a concrete failed parse stage. -/
theorem c7_only_parse_failure_aborts_witness :
    processUserInput witnessEngine
      (⟨false, none, ["ParseError"]⟩ : Stage1Res String) true =
      { success := false, problemType := none
        stage1 := ⟨false, none, ["ParseError"]⟩
        stage2 := none, stage3 := none, finalAnswer := none } :=
  (c7_only_parse_failure_aborts witnessEngine ⟨false, none, ["ParseError"]⟩).1 rfl

/-- Witness for C8 at the all-failing engine and a trigonometric
rendering. -/
theorem c8_strategy_failure_isolated_witness :
    (step2Simplify witnessEngine "sin(y)").success = true ∧
    ((step2Simplify witnessEngine "sin(y)").simplified).isSome = true ∧
    ("trigsimp", "sin(y)") ∉
      (buildSteps witnessEngine "sin(y)").filter
        (fun p => decide (p.2 ≠ "sin(y)")) :=
  ⟨(c8_strategy_failure_isolated witnessEngine "sin(y)" rfl).1,
   (c8_strategy_failure_isolated witnessEngine "sin(y)" rfl).2.1,
   (c8_strategy_failure_isolated witnessEngine "sin(y)" rfl).2.2 "sin(y)"⟩

end MainPy

namespace MainPy

theorem mem_collapseGo {c : Char} : ∀ (b : Bool) (s : List Char),
    c ∈ collapseGo b s → c ∈ s ∨ c = ' ' := by
  intro b s
  induction s generalizing b with
  | nil => intro h; cases h
  | cons d ds ih =>
    intro h
    unfold collapseGo at h
    by_cases hd : isSpaceC d
    · rw [if_pos hd] at h
      by_cases hb : b
      · rw [if_pos hb] at h
        rcases ih true h with h1 | h1
        · exact Or.inl (List.mem_cons_of_mem d h1)
        · exact Or.inr h1
      · rw [if_neg hb] at h
        rcases List.mem_cons.mp h with h1 | h1
        · exact Or.inr h1
        · rcases ih true h1 with h2 | h2
          · exact Or.inl (List.mem_cons_of_mem d h2)
          · exact Or.inr h2
    · rw [if_neg hd] at h
      rcases List.mem_cons.mp h with h1 | h1
      · exact Or.inl (h1 ▸ List.mem_cons_self d ds)
      · rcases ih false h1 with h2 | h2
        · exact Or.inl (List.mem_cons_of_mem d h2)
        · exact Or.inr h2

theorem mem_pyStrip {c : Char} {s : List Char} (h : c ∈ pyStrip s) : c ∈ s := by
  unfold pyStrip at h
  rw [List.mem_reverse] at h
  have h1 := (List.dropWhile_sublist _).mem h
  rw [List.mem_reverse] at h1
  exact (List.dropWhile_sublist _).mem h1

theorem mem_wsL {c : Char} {s : List Char} (h : c ∈ wsL s) : c ∈ s ∨ c = ' ' := by
  unfold wsL at h
  rcases mem_collapseGo false (pyStrip s) h with h1 | h1
  · exact Or.inl (mem_pyStrip h1)
  · exact Or.inr h1

theorem mem_subWordGo {c : Char} {w r : List Char} :
    ∀ (fuel : Nat) (prev : Option Char) (s : List Char),
      c ∈ subWordGo w r fuel prev s → c ∈ s ∨ c ∈ r := by
  intro fuel
  induction fuel with
  | zero => intro prev s h; exact Or.inl h
  | succ fuel ih =>
    intro prev s h
    cases s with
    | nil => cases h
    | cons d ds =>
      unfold subWordGo at h
      split at h
      · rcases List.mem_append.mp h with h1 | h1
        · exact Or.inr h1
        · rcases ih _ _ h1 with h2 | h2
          · exact Or.inl (List.drop_subset _ _ h2)
          · exact Or.inr h2
      · rcases List.mem_cons.mp h with h1 | h1
        · exact Or.inl (h1 ▸ List.mem_cons_self d ds)
        · rcases ih _ _ h1 with h2 | h2
          · exact Or.inl (List.mem_cons_of_mem d h2)
          · exact Or.inr h2

theorem mem_replaceCharL {c o : Char} {n : List Char} :
    ∀ s : List Char, c ∈ replaceCharL o n s → c ∈ s ∨ c ∈ n := by
  intro s
  induction s with
  | nil => intro h; cases h
  | cons d ds ih =>
    intro h
    unfold replaceCharL at h
    split at h
    · rcases List.mem_append.mp h with h1 | h1
      · exact Or.inr h1
      · rcases ih h1 with h2 | h2
        · exact Or.inl (List.mem_cons_of_mem d h2)
        · exact Or.inr h2
    · rcases List.mem_cons.mp h with h1 | h1
      · exact Or.inl (h1 ▸ List.mem_cons_self d ds)
      · rcases ih h1 with h2 | h2
        · exact Or.inl (List.mem_cons_of_mem d h2)
        · exact Or.inr h2

theorem replaceCharL_of_not_mem {o : Char} {n : List Char} :
    ∀ s : List Char, o ∉ s → replaceCharL o n s = s := by
  intro s
  induction s with
  | nil => intro _; rfl
  | cons d ds ih =>
    intro h
    unfold replaceCharL
    have hdo : ¬ d = o := fun hdo => h (List.mem_cons.mpr (Or.inl hdo.symm))
    rw [if_neg hdo, ih (fun hmem => h (List.mem_cons_of_mem d hmem))]

theorem not_mem_replaceCharL_self {o : Char} {n : List Char} (hn : o ∉ n) :
    ∀ s : List Char, o ∉ replaceCharL o n s := by
  intro s
  induction s with
  | nil => intro h; cases h
  | cons d ds ih =>
    intro h
    unfold replaceCharL at h
    split at h
    · rcases List.mem_append.mp h with h1 | h1
      · exact hn h1
      · exact ih h1
    · rename_i hdo
      rcases List.mem_cons.mp h with h1 | h1
      · exact hdo h1.symm
      · exact ih h1

theorem foldl_replaceChar_eq_self (pairs : List (Char × String)) :
    ∀ s : List Char, (∀ p ∈ pairs, p.1 ∉ s) →
      pairs.foldl (fun acc p => replaceCharL p.1 p.2.toList acc) s = s := by
  induction pairs with
  | nil => intro s _; rfl
  | cons q qs ih =>
    intro s h
    show qs.foldl _ (replaceCharL q.1 q.2.toList s) = s
    rw [replaceCharL_of_not_mem s (h q (List.mem_cons_self q qs))]
    exact ih s (fun p hp => h p (List.mem_cons_of_mem q hp))

theorem not_mem_foldl_replaceChar (pairs : List (Char × String)) {c : Char} :
    ∀ s : List Char, c ∉ s → (∀ p ∈ pairs, c ∉ p.2.toList) →
      c ∉ pairs.foldl (fun acc p => replaceCharL p.1 p.2.toList acc) s := by
  induction pairs with
  | nil => intro s hs _ h; exact hs h
  | cons q qs ih =>
    intro s hs hall h
    have h1 : c ∉ replaceCharL q.1 q.2.toList s := by
      intro hmem
      rcases mem_replaceCharL s hmem with h2 | h2
      · exact hs h2
      · exact hall q (List.mem_cons_self q qs) h2
    exact ih _ h1 (fun p hp => hall p (List.mem_cons_of_mem q hp)) h

end MainPy

namespace MainPy

/-- proof-side: well-spaced with left context b (previous char was a space) -/
def spOk : Bool → List Char → Bool
  | _, [] => true
  | b, c :: cs =>
    if isSpaceC c then (decide (c = ' ') && !b) && spOk true cs
    else spOk false cs

/-- proof-side: no leading whitespace -/
def hdOk : List Char → Bool
  | [] => true
  | c :: _ => !isSpaceC c

/-- proof-side: no trailing whitespace -/
def tlOk (s : List Char) : Bool :=
  match s.getLast? with
  | none => true
  | some c => !isSpaceC c

theorem spOk_cons_space {b : Bool} {c : Char} {cs : List Char}
    (hc : isSpaceC c = true) :
    spOk b (c :: cs) = ((decide (c = ' ') && !b) && spOk true cs) := by
  show (if isSpaceC c = true then (decide (c = ' ') && !b) && spOk true cs
    else spOk false cs) = _
  rw [if_pos hc]

theorem spOk_cons_nonspace {b : Bool} {c : Char} {cs : List Char}
    (hc : isSpaceC c = false) :
    spOk b (c :: cs) = spOk false cs := by
  show (if isSpaceC c = true then (decide (c = ' ') && !b) && spOk true cs
    else spOk false cs) = _
  rw [if_neg (by rw [hc]; simp)]

theorem collapseGo_spOk : ∀ (s : List Char) (b : Bool),
    spOk b (collapseGo b s) = true := by
  intro s
  induction s with
  | nil => intro b; rfl
  | cons c cs ih =>
    intro b
    unfold collapseGo
    by_cases hc : isSpaceC c
    · rw [if_pos hc]
      by_cases hb : b
      · subst hb
        rw [if_pos rfl]
        exact ih true
      · have hb' : b = false := by simpa using hb
        subst hb'
        rw [if_neg (by simp)]
        rw [spOk_cons_space (by decide)]
        simp [ih true]
    · rw [if_neg hc]
      rw [spOk_cons_nonspace (by simpa using hc)]
      exact ih false

theorem collapseGo_eq_self : ∀ (s : List Char) (b : Bool),
    spOk b s = true → collapseGo b s = s := by
  intro s
  induction s with
  | nil => intro b _; rfl
  | cons c cs ih =>
    intro b h
    unfold collapseGo
    by_cases hc : isSpaceC c
    · rw [spOk_cons_space hc] at h
      simp only [Bool.and_eq_true, decide_eq_true_eq] at h
      obtain ⟨⟨hce, hbf⟩, hrest⟩ := h
      have hb : b = false := by simpa using hbf
      subst hb
      rw [if_pos hc, if_neg (by simp)]
      rw [ih true hrest, hce]
    · rw [if_neg hc]
      rw [spOk_cons_nonspace (by simpa using hc)] at h
      rw [ih false h]

theorem dropWhile_head_not (p : Char → Bool) :
    ∀ s : List Char, ∀ c, (s.dropWhile p).head? = some c → p c = false := by
  intro s
  induction s with
  | nil => intro c h; cases h
  | cons d ds ih =>
    intro c h
    rw [List.dropWhile_cons] at h
    split at h
    · exact ih c h
    · rename_i hd
      rw [List.head?_cons, Option.some.injEq] at h
      rw [← h]
      simpa using hd

theorem hdOk_eq_true_iff {s : List Char} :
    hdOk s = true ↔ ∀ c, s.head? = some c → isSpaceC c = false := by
  cases s with
  | nil => simp [hdOk]
  | cons c cs =>
    simp only [hdOk, List.head?_cons, Bool.not_eq_true']
    constructor
    · intro h d hd
      rw [Option.some.injEq] at hd
      exact hd ▸ h
    · intro h
      exact h c rfl

theorem tlOk_eq_true_iff {s : List Char} :
    tlOk s = true ↔ ∀ c, s.getLast? = some c → isSpaceC c = false := by
  unfold tlOk
  cases h : s.getLast? with
  | none => simp
  | some c =>
    simp only [Bool.not_eq_true']
    constructor
    · intro h1 d hd
      rw [Option.some.injEq] at hd
      exact hd ▸ h1
    · intro h1
      exact h1 c rfl

theorem pyStrip_eq_self {s : List Char} (h1 : hdOk s = true) (h2 : tlOk s = true) :
    pyStrip s = s := by
  unfold pyStrip
  have hd : s.dropWhile isSpaceC = s := by
    cases s with
    | nil => rfl
    | cons c cs =>
      rw [List.dropWhile_cons]
      rw [if_neg (by simp only [hdOk, Bool.not_eq_true'] at h1; rw [h1]; simp)]
  rw [hd]
  have ht : s.reverse.dropWhile isSpaceC = s.reverse := by
    cases hr : s.reverse with
    | nil => rfl
    | cons c cs =>
      rw [List.dropWhile_cons]
      have hlast : s.getLast? = some c := by
        rw [← List.head?_reverse, hr, List.head?_cons]
      rw [if_neg (by rw [tlOk_eq_true_iff] at h2; rw [h2 c hlast]; simp)]
  rw [ht, List.reverse_reverse]

theorem wsL_eq_self {s : List Char} (h0 : spOk false s = true)
    (h1 : hdOk s = true) (h2 : tlOk s = true) : wsL s = s := by
  unfold wsL
  rw [pyStrip_eq_self h1 h2, collapseGo_eq_self s false h0]

end MainPy

namespace MainPy

theorem hdOk_pyStrip (s : List Char) : hdOk (pyStrip s) = true := by
  rw [hdOk_eq_true_iff]
  intro c hc
  unfold pyStrip at hc
  rw [List.head?_reverse] at hc
  have hsuf := List.dropWhile_suffix (l := (s.dropWhile isSpaceC).reverse) isSpaceC
  obtain ⟨pre, hpre⟩ := hsuf
  cases hdw : (s.dropWhile isSpaceC).reverse.dropWhile isSpaceC with
  | nil => rw [hdw] at hc; cases hc
  | cons d t =>
    rw [hdw] at hc hpre
    have hX : (s.dropWhile isSpaceC).reverse.getLast? = some c := by
      rw [← hpre, List.getLast?_append_of_ne_nil pre (by simp)]
      exact hc
    rw [List.getLast?_reverse] at hX
    exact dropWhile_head_not isSpaceC s c hX

theorem tlOk_pyStrip (s : List Char) : tlOk (pyStrip s) = true := by
  rw [tlOk_eq_true_iff]
  intro c hc
  unfold pyStrip at hc
  rw [List.getLast?_reverse] at hc
  exact dropWhile_head_not isSpaceC _ c hc

theorem collapseGo_hdOk (s : List Char) (h : hdOk s = true) :
    hdOk (collapseGo false s) = true := by
  cases s with
  | nil => rfl
  | cons c cs =>
    have hc : isSpaceC c = false := by simpa [hdOk] using h
    unfold collapseGo
    rw [if_neg (by rw [hc]; simp)]
    simp [hdOk, hc]

theorem tlOk_cons {c : Char} {cs : List Char} (h : cs ≠ []) :
    tlOk (c :: cs) = tlOk cs := by
  unfold tlOk
  rw [List.getLast?_cons]
  cases cs with
  | nil => exact absurd rfl h
  | cons d ds => rfl

theorem collapseGo_ne_nil : ∀ (s : List Char) (b : Bool),
    s ≠ [] → tlOk s = true → collapseGo b s ≠ [] := by
  intro s
  induction s with
  | nil => intro b h; exact absurd rfl h
  | cons c cs ih =>
    intro b _ ht
    unfold collapseGo
    by_cases hc : isSpaceC c
    · rw [if_pos hc]
      have hcs : cs ≠ [] := by
        intro h0
        subst h0
        rw [tlOk_eq_true_iff] at ht
        have := ht c (by rfl)
        rw [hc] at this
        cases this
      have htcs : tlOk cs = true := by
        rw [← tlOk_cons hcs]
        exact ht
      by_cases hb : b
      · rw [if_pos hb]
        exact ih true hcs htcs
      · rw [if_neg hb]
        simp
    · rw [if_neg hc]
      simp

theorem collapseGo_tlOk : ∀ (s : List Char) (b : Bool),
    tlOk s = true → tlOk (collapseGo b s) = true := by
  intro s
  induction s with
  | nil => intro b _; rfl
  | cons c cs ih =>
    intro b ht
    unfold collapseGo
    cases hcs : cs with
    | nil =>
      subst hcs
      by_cases hc : isSpaceC c
      · rw [tlOk_eq_true_iff] at ht
        have := ht c rfl
        rw [hc] at this
        cases this
      · rw [if_neg hc]
        show tlOk [c] = true
        unfold tlOk
        simp only [List.getLast?_singleton]
        simpa using hc
    | cons d ds =>
      subst hcs
      have hne : (d :: ds) ≠ [] := by simp
      have htcs : tlOk (d :: ds) = true := by rw [← tlOk_cons hne]; exact ht
      by_cases hc : isSpaceC c
      · rw [if_pos hc]
        by_cases hb : b
        · rw [if_pos hb]
          exact ih true htcs
        · rw [if_neg hb]
          have hnn := collapseGo_ne_nil (d :: ds) true hne htcs
          rw [tlOk_cons hnn]
          exact ih true htcs
      · rw [if_neg hc]
        have hnn := collapseGo_ne_nil (d :: ds) false hne htcs
        rw [tlOk_cons hnn]
        exact ih false htcs

theorem wsL_spOk (s : List Char) : spOk false (wsL s) = true :=
  collapseGo_spOk (pyStrip s) false

theorem wsL_hdOk (s : List Char) : hdOk (wsL s) = true :=
  collapseGo_hdOk (pyStrip s) (hdOk_pyStrip s)

theorem wsL_tlOk (s : List Char) : tlOk (wsL s) = true :=
  collapseGo_tlOk (pyStrip s) false (tlOk_pyStrip s)

end MainPy

namespace MainPy

theorem spOk_append_sf {x y : List Char} (hx : ∀ c ∈ x, isSpaceC c = false)
    (hne : x ≠ []) : ∀ b, spOk b (x ++ y) = spOk false y := by
  induction x with
  | nil => exact absurd rfl hne
  | cons c cs ih =>
    intro b
    rw [List.cons_append, spOk_cons_nonspace (hx c (List.mem_cons_self c cs))]
    cases cs with
    | nil => rw [List.nil_append]
    | cons d ds =>
      exact ih (fun e he => hx e (List.mem_cons_of_mem c he)) (by simp) false

theorem subWordGo_spOk {w r : List Char} (hw : ∀ c ∈ w, isSpaceC c = false)
    (hw0 : w ≠ []) (hr : ∀ c ∈ r, isSpaceC c = false) (hr0 : r ≠ []) :
    ∀ (fuel : Nat) (prev : Option Char) (s : List Char) (b : Bool),
      spOk b s = true → spOk b (subWordGo w r fuel prev s) = true := by
  intro fuel
  induction fuel with
  | zero => intro prev s b h; exact h
  | succ fuel ih =>
    intro prev s b h
    cases s with
    | nil => exact h
    | cons c cs =>
      unfold subWordGo
      split
      · rename_i hcond
        simp only [Bool.and_eq_true] at hcond
        obtain ⟨⟨hpre, _⟩, _⟩ := hcond
        have hsplit : w ++ (c :: cs).drop w.length = c :: cs :=
          List.prefix_iff_eq_append.mp (List.isPrefixOf_iff_prefix.mp hpre)
        rw [spOk_append_sf hr hr0]
        rw [← hsplit, spOk_append_sf hw hw0] at h
        exact ih _ _ false h
      · by_cases hc : isSpaceC c
        · rw [spOk_cons_space hc] at h ⊢
          simp only [Bool.and_eq_true] at h ⊢
          exact ⟨h.1, ih _ _ true h.2⟩
        · have hc' : isSpaceC c = false := by simpa using hc
          rw [spOk_cons_nonspace hc'] at h ⊢
          exact ih _ _ false h

theorem subWordGo_ne_nil {w r : List Char} (hr0 : r ≠ []) :
    ∀ (fuel : Nat) (prev : Option Char) (s : List Char), s ≠ [] →
      subWordGo w r fuel prev s ≠ [] := by
  intro fuel prev s hs
  cases fuel with
  | zero => exact hs
  | succ fuel =>
    cases s with
    | nil => exact hs
    | cons c cs =>
      unfold subWordGo
      split
      · simp [hr0]
      · simp

theorem subWordGo_hdOk {w r : List Char} (hr : ∀ c ∈ r, isSpaceC c = false)
    (hr0 : r ≠ []) :
    ∀ (fuel : Nat) (prev : Option Char) (s : List Char),
      hdOk s = true → hdOk (subWordGo w r fuel prev s) = true := by
  intro fuel prev s h
  cases fuel with
  | zero => exact h
  | succ fuel =>
    cases s with
    | nil => exact h
    | cons c cs =>
      unfold subWordGo
      split
      · cases n : r with
        | nil => exact absurd n hr0
        | cons d ds =>
          simpa [hdOk] using hr d (by rw [n]; exact List.mem_cons_self d ds)
      · simpa [hdOk] using h

theorem getLast?_drop_of_ne_nil {s : List Char} {n : Nat} (h : s.drop n ≠ []) :
    (s.drop n).getLast? = s.getLast? := by
  conv_rhs => rw [← List.take_append_drop n s]
  rw [List.getLast?_append_of_ne_nil _ h]

theorem subWordGo_tlOk {w r : List Char} (hw0 : w ≠ [])
    (hr : ∀ c ∈ r, isSpaceC c = false) (hr0 : r ≠ []) :
    ∀ (fuel : Nat) (prev : Option Char) (s : List Char),
      tlOk s = true → tlOk (subWordGo w r fuel prev s) = true := by
  intro fuel
  induction fuel with
  | zero => intro _ s h; exact h
  | succ fuel ih =>
    intro prev s h
    cases s with
    | nil => exact h
    | cons c cs =>
      unfold subWordGo
      split
      · cases hrest : (c :: cs).drop w.length with
        | nil =>
          have hrec : subWordGo w r fuel (some (w.getLastD c)) ([] : List Char) = [] := by
            cases fuel <;> rfl
          rw [hrec, List.append_nil]
          rw [tlOk_eq_true_iff]
          intro d hd
          exact hr d (List.mem_of_mem_getLast? hd)
        | cons e es =>
          have hrne : (c :: cs).drop w.length ≠ [] := by rw [hrest]; simp
          have hlast : tlOk (e :: es) = true := by
            rw [tlOk_eq_true_iff]
            intro d hd
            have hd' : ((c :: cs).drop w.length).getLast? = some d := by
              rw [hrest]; exact hd
            rw [getLast?_drop_of_ne_nil hrne] at hd'
            exact (tlOk_eq_true_iff.mp h) d hd'
          have hrecne : subWordGo w r fuel (some (w.getLastD c)) (e :: es) ≠ [] :=
            subWordGo_ne_nil hr0 fuel _ _ (by simp)
          rw [tlOk_eq_true_iff]
          intro d hd
          rw [List.getLast?_append_of_ne_nil _ hrecne] at hd
          exact (tlOk_eq_true_iff.mp (ih _ _ hlast)) d hd
      · cases hcs : cs with
        | nil =>
          subst hcs
          have hrec : subWordGo w r fuel (some c) ([] : List Char) = [] := by
            cases fuel <;> rfl
          rw [hrec]
          exact h
        | cons e es =>
          subst hcs
          have hne : (e :: es) ≠ [] := by simp
          have h2 : tlOk (e :: es) = true := by rw [← tlOk_cons hne]; exact h
          have hrecne : subWordGo w r fuel (some c) (e :: es) ≠ [] :=
            subWordGo_ne_nil hr0 fuel (some c) (e :: es) hne
          rw [tlOk_cons hrecne]
          exact ih _ _ h2

theorem replaceCharL_ne_nil {o : Char} {n : List Char} (hn0 : n ≠ []) :
    ∀ s : List Char, s ≠ [] → replaceCharL o n s ≠ [] := by
  intro s hs
  cases s with
  | nil => exact hs
  | cons c cs =>
    unfold replaceCharL
    split
    · simp [hn0]
    · simp

theorem replaceCharL_spOk {o : Char} {n : List Char} (ho : isSpaceC o = false)
    (hn : ∀ c ∈ n, isSpaceC c = false) (hn0 : n ≠ []) :
    ∀ (s : List Char) (b : Bool), spOk b s = true →
      spOk b (replaceCharL o n s) = true := by
  intro s
  induction s with
  | nil => intro b h; exact h
  | cons c cs ih =>
    intro b h
    unfold replaceCharL
    split
    · rename_i hco
      subst hco
      rw [spOk_cons_nonspace ho] at h
      rw [spOk_append_sf hn hn0]
      exact ih false h
    · by_cases hc : isSpaceC c
      · rw [spOk_cons_space hc] at h ⊢
        simp only [Bool.and_eq_true] at h ⊢
        exact ⟨h.1, ih true h.2⟩
      · have hc' : isSpaceC c = false := by simpa using hc
        rw [spOk_cons_nonspace hc'] at h ⊢
        exact ih false h

theorem replaceCharL_hdOk {o : Char} {n : List Char}
    (hn : ∀ c ∈ n, isSpaceC c = false) (hn0 : n ≠ []) :
    ∀ s : List Char, hdOk s = true → hdOk (replaceCharL o n s) = true := by
  intro s h
  cases s with
  | nil => exact h
  | cons c cs =>
    unfold replaceCharL
    split
    · cases hn' : n with
      | nil => exact absurd hn' hn0
      | cons d ds =>
        simpa [hdOk] using hn d (by rw [hn']; exact List.mem_cons_self d ds)
    · simpa [hdOk] using h

theorem replaceCharL_tlOk {o : Char} {n : List Char}
    (hn : ∀ c ∈ n, isSpaceC c = false) (hn0 : n ≠ []) :
    ∀ s : List Char, tlOk s = true → tlOk (replaceCharL o n s) = true := by
  intro s
  induction s with
  | nil => intro h; exact h
  | cons c cs ih =>
    intro h
    cases hcs : cs with
    | nil =>
      subst hcs
      unfold replaceCharL
      split
      · rw [show replaceCharL o n ([] : List Char) = [] from rfl, List.append_nil]
        rw [tlOk_eq_true_iff]
        intro d hd
        exact hn d (List.mem_of_mem_getLast? hd)
      · exact h
    | cons e es =>
      subst hcs
      have hne : (e :: es) ≠ [] := by simp
      have h2 : tlOk (e :: es) = true := by rw [← tlOk_cons hne]; exact h
      have hrne : replaceCharL o n (e :: es) ≠ [] := replaceCharL_ne_nil hn0 (e :: es) hne
      unfold replaceCharL
      split
      · rw [tlOk_eq_true_iff]
        intro d hd
        rw [List.getLast?_append_of_ne_nil _ hrne] at hd
        exact (tlOk_eq_true_iff.mp (ih h2)) d hd
      · rw [tlOk_cons hrne]
        exact ih h2

end MainPy

namespace MainPy

/-! ## C9 layer D: boundary-delimited occurrences

A match of the regex backslash-b w backslash-b (for a pattern w of word
characters) is an occurrence of w whose left neighbour is a non-word
character (or the scan start, recorded by the ok flag) and whose right
neighbour is a non-word character or the string end. The predicate BOccB
captures exactly this; the lemmas below settle when a substitution pass
can leave, create or destroy such occurrences. -/

/-- No word character at the head: the right-boundary side of a match. -/
def headNW (b : List Char) : Prop :=
  ∀ c, b.head? = some c → isWordC c = false

/-- Boundary-delimited occurrence of w in s; ok tells whether the string
start counts as a left boundary. -/
def BOccB (ok : Bool) (w s : List Char) : Prop :=
  ∃ a b, s = a ++ (w ++ b) ∧ (a = [] → ok = true) ∧
    (∀ c, a.getLast? = some c → isWordC c = false) ∧ headNW b

theorem headNW_nil : headNW [] := fun _ h => by cases h

theorem BOccB_mono {ok : Bool} {w s : List Char} (h : BOccB ok w s) :
    BOccB true w s := by
  obtain ⟨a, b, he, _, h2, h3⟩ := h
  exact ⟨a, b, he, fun _ => rfl, h2, h3⟩

theorem not_BOccB_nil {ok : Bool} {w : List Char} (hw : w ≠ []) :
    ¬ BOccB ok w [] := by
  rintro ⟨a, b, he, -, -, -⟩
  rcases List.append_eq_nil.mp he.symm with ⟨-, h1⟩
  exact hw (List.append_eq_nil.mp h1).1

theorem BOccB_cons_lift {c : Char} {w t : List Char} {ok : Bool}
    (h : BOccB (!isWordC c) w t) : BOccB ok w (c :: t) := by
  obtain ⟨a, b, he, h1, h2, h3⟩ := h
  refine ⟨c :: a, b, by rw [he, List.cons_append], fun hc => absurd hc (List.cons_ne_nil c a), ?_, h3⟩
  intro d hd
  cases a with
  | nil =>
    have hdc : d = c := by
      have : (c :: ([] : List Char)).getLast? = some c := rfl
      rw [this] at hd
      injection hd with hd
      exact hd.symm
    subst hdc
    have h4 := h1 rfl
    cases hIs : isWordC d
    · rfl
    · rw [hIs] at h4; cases h4
  | cons e es =>
    rw [List.getLast?_cons_cons] at hd
    exact h2 d hd

theorem BOccB_cons_elim {c : Char} {w t : List Char} {ok : Bool}
    (h : BOccB ok w (c :: t)) :
    (ok = true ∧ ∃ b, c :: t = w ++ b ∧ headNW b) ∨ BOccB (!isWordC c) w t := by
  obtain ⟨a, b, he, h1, h2, h3⟩ := h
  cases a with
  | nil => exact Or.inl ⟨h1 rfl, b, he, h3⟩
  | cons d a' =>
    rw [List.cons_append] at he
    injection he with hcd ht
    refine Or.inr ⟨a', b, ht, ?_, ?_, h3⟩
    · intro ha'
      subst ha'
      have h4 : isWordC c = false := by
        apply h2
        rw [hcd]
        rfl
      rw [h4]
      rfl
    · intro e he'
      apply h2
      cases a' with
      | nil => cases he'
      | cons f fs => rw [List.getLast?_cons_cons]; exact he'

theorem BOccB_word_append_elim {w y : List Char} (x : List Char) {ok : Bool}
    (hx : ∀ c ∈ x, isWordC c = true) (h : BOccB ok w (x ++ y)) :
    (ok = true ∧ ∃ b, x ++ y = w ++ b ∧ headNW b) ∨ BOccB false w y ∨
      (x = [] ∧ BOccB ok w y) := by
  induction x generalizing ok with
  | nil => exact Or.inr (Or.inr ⟨rfl, h⟩)
  | cons d x' ih =>
    rw [List.cons_append] at h
    rcases BOccB_cons_elim h with ⟨hok, b, hb, hnw⟩ | h2
    · exact Or.inl ⟨hok, b, by rw [List.cons_append, hb], hnw⟩
    · have hd : isWordC d = true := hx d (List.mem_cons_self d x')
      rw [hd] at h2
      rcases ih (fun c hc => hx c (List.mem_cons_of_mem d hc)) h2 with h3 | h3 | h3
      · cases h3.1
      · exact Or.inr (Or.inl h3)
      · exact Or.inr (Or.inl h3.2)

theorem BOccB_nonword_append_elim {w y : List Char} (hw0 : w ≠ [])
    (hww : ∀ c ∈ w, isWordC c = true) (x : List Char) {ok : Bool}
    (hx : ∀ c ∈ x, isWordC c = false) (h : BOccB ok w (x ++ y)) :
    BOccB true w y := by
  induction x generalizing ok with
  | nil => exact BOccB_mono h
  | cons d x' ih =>
    rw [List.cons_append] at h
    rcases BOccB_cons_elim h with ⟨-, b, hb, -⟩ | h2
    · cases w with
      | nil => exact absurd rfl hw0
      | cons e w2 =>
        rw [List.cons_append] at hb
        injection hb with hde htl
        have h1 := hww e (List.mem_cons_self e w2)
        have h2' := hx d (List.mem_cons_self d x')
        rw [hde, h1] at h2'
        cases h2'
    · exact ih (fun c hc => hx c (List.mem_cons_of_mem d hc)) h2

theorem BOccB_append_lift {w y : List Char} {ok : Bool} (x : List Char)
    (h : BOccB false w y) : BOccB ok w (x ++ y) := by
  obtain ⟨a, b, he, h1, h2, h3⟩ := h
  have ha : a ≠ [] := fun hn => Bool.noConfusion (h1 hn)
  refine ⟨x ++ a, b, by rw [he, List.append_assoc],
    fun hxa => absurd (List.append_eq_nil.mp hxa).2 ha, ?_, h3⟩
  intro c hc
  rw [List.getLast?_append_of_ne_nil _ ha] at hc
  exact h2 c hc

end MainPy

namespace MainPy

theorem subWordGo_succ_pos {w r : List Char} {fuel : Nat} {prev : Option Char}
    {c : Char} {cs : List Char}
    (hg : (w.isPrefixOf (c :: cs) && bdryL prev && bdryR ((c :: cs).drop w.length)) = true) :
    subWordGo w r (fuel+1) prev (c :: cs) =
      r ++ subWordGo w r fuel (some (w.getLastD c)) ((c :: cs).drop w.length) := by
  show (if (w.isPrefixOf (c :: cs) && bdryL prev && bdryR ((c :: cs).drop w.length)) = true
        then r ++ subWordGo w r fuel (some (w.getLastD c)) ((c :: cs).drop w.length)
        else c :: subWordGo w r fuel (some c) cs) =
      r ++ subWordGo w r fuel (some (w.getLastD c)) ((c :: cs).drop w.length)
  rw [if_pos hg]

theorem subWordGo_succ_neg {w r : List Char} {fuel : Nat} {prev : Option Char}
    {c : Char} {cs : List Char}
    (hg : ¬ (w.isPrefixOf (c :: cs) && bdryL prev && bdryR ((c :: cs).drop w.length)) = true) :
    subWordGo w r (fuel+1) prev (c :: cs) = c :: subWordGo w r fuel (some c) cs := by
  show (if (w.isPrefixOf (c :: cs) && bdryL prev && bdryR ((c :: cs).drop w.length)) = true
        then r ++ subWordGo w r fuel (some (w.getLastD c)) ((c :: cs).drop w.length)
        else c :: subWordGo w r fuel (some c) cs) =
      c :: subWordGo w r fuel (some c) cs
  rw [if_neg hg]

theorem replaceCharL_cons_pos {o : Char} {n : List Char} {c : Char} {cs : List Char}
    (h : c = o) : replaceCharL o n (c :: cs) = n ++ replaceCharL o n cs := by
  show (if c = o then n ++ replaceCharL o n cs else c :: replaceCharL o n cs) =
    n ++ replaceCharL o n cs
  rw [if_pos h]

theorem replaceCharL_cons_neg {o : Char} {n : List Char} {c : Char} {cs : List Char}
    (h : ¬ c = o) : replaceCharL o n (c :: cs) = c :: replaceCharL o n cs := by
  show (if c = o then n ++ replaceCharL o n cs else c :: replaceCharL o n cs) =
    c :: replaceCharL o n cs
  rw [if_neg h]

/-- A boundary-delimited pattern w cannot start at the beginning of an
inserted all-word block r unless r is a prefix of w. -/
theorem word_block_prefix_false {w r rest b : List Char}
    (hrw : ∀ c ∈ r, isWordC c = true) (hnp : r.isPrefixOf w = false)
    (hb : r ++ rest = w ++ b) (hnw : headNW b) : False := by
  have hw1 : w <+: r ++ rest := ⟨b, hb.symm⟩
  have hr1 : r <+: r ++ rest := ⟨rest, rfl⟩
  rcases List.prefix_or_prefix_of_prefix hw1 hr1 with hwr | hrw2
  · have hr2 : w ++ r.drop w.length = r := List.prefix_iff_eq_append.mp hwr
    have hr2ne : r.drop w.length ≠ [] := by
      intro hnil
      rw [hnil, List.append_nil] at hr2
      have hpw : r.isPrefixOf w = true := by
        rw [List.isPrefixOf_iff_prefix, hr2]
      rw [hpw] at hnp
      cases hnp
    have hbval : b = r.drop w.length ++ rest := by
      have h3 : w ++ b = w ++ (r.drop w.length ++ rest) := by
        rw [← hb, ← List.append_assoc, hr2]
      exact List.append_cancel_left h3
    cases hdd : r.drop w.length with
    | nil => exact hr2ne hdd
    | cons d ds =>
      have hmem : d ∈ r := by
        have hd1 : d ∈ r.drop w.length := by rw [hdd]; exact List.mem_cons_self d ds
        exact List.drop_subset _ _ hd1
      have hword := hrw d hmem
      have hnwd : isWordC d = false := by
        apply hnw
        rw [hbval, hdd]
        rfl
      rw [hword] at hnwd
      cases hnwd
  · rw [← List.isPrefixOf_iff_prefix] at hrw2
    rw [hrw2] at hnp
    cases hnp

/-- In a scan whose left context is a word character, an all-word prefix of
the output with a right boundary pulls back to the input. -/
theorem subWordPrefix_pullback {w r : List Char} :
    ∀ (fuel : Nat) (p : Char) (cs v b : List Char), isWordC p = true →
      (∀ x ∈ v, isWordC x = true) → v ++ b = subWordGo w r fuel (some p) cs →
      headNW b → ∃ b0, cs = v ++ b0 ∧ headNW b0 := by
  intro fuel
  induction fuel with
  | zero =>
    intro p cs v b _ _ he hb
    exact ⟨b, he.symm, hb⟩
  | succ fuel ih =>
    intro p cs v b hp hv he hb
    cases cs with
    | nil =>
      have he' : v ++ b = [] := he
      rcases List.append_eq_nil.mp he' with ⟨hv0, hb0⟩
      refine ⟨[], ?_, headNW_nil⟩
      rw [hv0]
      rfl
    | cons c cs' =>
      have hbl : bdryL (some p) = false := by
        show (!isWordC p) = false
        rw [hp]
        rfl
      have hg : ¬ (w.isPrefixOf (c :: cs') && bdryL (some p) &&
          bdryR ((c :: cs').drop w.length)) = true := by
        rw [hbl]
        simp
      rw [subWordGo_succ_neg hg] at he
      cases v with
      | nil =>
        refine ⟨c :: cs', rfl, ?_⟩
        intro d hd
        injection hd with hd
        have hbhead : b.head? = some c := by
          have hbv : b = c :: subWordGo w r fuel (some c) cs' := he
          rw [hbv]
          rfl
        have := hb c hbhead
        rw [← hd]
        exact this
      | cons x v' =>
        rw [List.cons_append] at he
        injection he with h1 h2
        have hcw : isWordC c = true := by
          rw [← h1]
          exact hv x (List.mem_cons_self x v')
        obtain ⟨b0, hcs', hb0⟩ := ih c cs' v' b hcw
          (fun y hy => hv y (List.mem_cons_of_mem x hy)) h2 hb
        refine ⟨b0, ?_, hb0⟩
        rw [hcs', List.cons_append, h1]

/-- The head of a string with a boundary-matched prefix is a word character
of the pattern. -/
theorem head_word_of_prefix {wq : List Char} (hwqw : ∀ c ∈ wq, isWordC c = true)
    (hw0 : wq ≠ []) {c : Char} {cs : List Char}
    (hpre : wq.isPrefixOf (c :: cs) = true) : isWordC c = true := by
  cases wq with
  | nil => exact absurd rfl hw0
  | cons q qs =>
    obtain ⟨bq, hbq⟩ := List.isPrefixOf_iff_prefix.mp hpre
    rw [List.cons_append] at hbq
    injection hbq with h1 h2
    rw [← h1]
    exact hwqw q (List.mem_cons_self q qs)

/-- After an all-word pattern matches, the scan context on the left of the
remainder is a word character. -/
theorem bdryL_getLastD_false {wq : List Char} (hwqw : ∀ c ∈ wq, isWordC c = true)
    {c : Char} (hc : isWordC c = true) : bdryL (some (wq.getLastD c)) = false := by
  have hmem := List.getLastD_mem_cons wq c
  have hword : isWordC (wq.getLastD c) = true := by
    rcases List.mem_cons.mp hmem with h | h
    · rw [h]; exact hc
    · exact hwqw _ h
  show (!isWordC (wq.getLastD c)) = false
  rw [hword]
  rfl

end MainPy

namespace MainPy

/-- After one alias pass runs to completion, no boundary-delimited
occurrence of its own pattern remains (the pattern and replacement are
all-word and the replacement is not a prefix of the pattern). -/
theorem noBOccB_after_subWordGo {w r : List Char} (hw0 : w ≠ [])
    (hww : ∀ c ∈ w, isWordC c = true) (hrw : ∀ c ∈ r, isWordC c = true)
    (hr0 : r ≠ []) (hnp : r.isPrefixOf w = false) :
    ∀ (fuel : Nat) (prev : Option Char) (s : List Char), s.length ≤ fuel →
      ¬ BOccB (bdryL prev) w (subWordGo w r fuel prev s) := by
  intro fuel
  induction fuel with
  | zero =>
    intro prev s hlen
    have hs : s = [] := List.length_eq_zero.mp (Nat.le_zero.mp hlen)
    subst hs
    exact not_BOccB_nil hw0
  | succ fuel ih =>
    intro prev s hlen
    cases s with
    | nil => exact not_BOccB_nil hw0
    | cons c cs =>
      by_cases hg : (w.isPrefixOf (c :: cs) && bdryL prev &&
          bdryR ((c :: cs).drop w.length)) = true
      · rw [subWordGo_succ_pos hg]
        intro hocc
        rcases BOccB_word_append_elim r hrw hocc with ⟨-, b, hb, hnw⟩ | h2 | h2
        · exact word_block_prefix_false hrw hnp hb hnw
        · simp only [Bool.and_eq_true] at hg
          obtain ⟨⟨hpre, hbl⟩, hbr⟩ := hg
          have hcw : isWordC c = true := head_word_of_prefix hww hw0 hpre
          have hlast := bdryL_getLastD_false hww hcw
          have hwlen : 1 ≤ w.length := by
            cases w with
            | nil => exact absurd rfl hw0
            | cons e w2 => simp
          have hdlen : ((c :: cs).drop w.length).length ≤ fuel := by
            rw [List.length_drop]
            simp only [List.length_cons] at hlen ⊢
            omega
          have hih := ih (some (w.getLastD c)) ((c :: cs).drop w.length) hdlen
          rw [hlast] at hih
          exact hih h2
        · exact hr0 h2.1
      · rw [subWordGo_succ_neg hg]
        intro hocc
        rcases BOccB_cons_elim hocc with ⟨hok, b, hb, hnw⟩ | h2
        · cases w with
          | nil => exact hw0 rfl
          | cons e w2 =>
            rw [List.cons_append] at hb
            injection hb with h1 h2'
            have hcw : isWordC c = true := by
              rw [h1]
              exact hww e (List.mem_cons_self e w2)
            obtain ⟨b0, hcs, hb0⟩ := subWordPrefix_pullback fuel c cs w2 b hcw
              (fun x hx => hww x (List.mem_cons_of_mem e hx)) h2'.symm hnw
            apply hg
            have hpre : (e :: w2).isPrefixOf (c :: cs) = true := by
              rw [List.isPrefixOf_iff_prefix]
              refine ⟨b0, ?_⟩
              rw [hcs, List.cons_append, h1]
            have hdropv : (c :: cs).drop (e :: w2).length = b0 := by
              rw [hcs]
              show (c :: (w2 ++ b0)).drop (w2.length + 1) = b0
              rw [List.drop_succ_cons, List.drop_left]
            have hdrop : bdryR ((c :: cs).drop (e :: w2).length) = true := by
              rw [hdropv]
              cases b0 with
              | nil => rfl
              | cons f fs =>
                show (!isWordC f) = true
                rw [hb0 f rfl]
                rfl
            rw [hpre, hok, hdrop]
            rfl
        · have hlen2 : cs.length ≤ fuel := by
            simp only [List.length_cons] at hlen
            omega
          have hih := ih (some c) cs hlen2
          exact hih h2

/-- A pass whose pattern has no boundary-delimited occurrence leaves the
string unchanged. -/
theorem subWordGo_eq_self_of_no_occ {w r : List Char} :
    ∀ (fuel : Nat) (prev : Option Char) (s : List Char),
      ¬ BOccB (bdryL prev) w s → subWordGo w r fuel prev s = s := by
  intro fuel
  induction fuel with
  | zero => intro prev s _; rfl
  | succ fuel ih =>
    intro prev s hno
    cases s with
    | nil => rfl
    | cons c cs =>
      by_cases hg : (w.isPrefixOf (c :: cs) && bdryL prev &&
          bdryR ((c :: cs).drop w.length)) = true
      · exfalso
        apply hno
        simp only [Bool.and_eq_true] at hg
        obtain ⟨⟨hpre, hbl⟩, hbr⟩ := hg
        have hp : w <+: c :: cs := List.isPrefixOf_iff_prefix.mp hpre
        have heq : c :: cs = w ++ (c :: cs).drop w.length :=
          (List.prefix_iff_eq_append.mp hp).symm
        refine ⟨[], (c :: cs).drop w.length, heq, fun _ => hbl,
          fun d hd => Option.noConfusion hd, ?_⟩
        intro d hd
        cases hdd : (c :: cs).drop w.length with
        | nil => rw [hdd] at hd; cases hd
        | cons f fs =>
          rw [hdd] at hd
          injection hd with hd
          rw [hdd] at hbr
          have hbr' : (!isWordC f) = true := hbr
          rw [← hd]
          cases hIs : isWordC f
          · rfl
          · rw [hIs] at hbr'; cases hbr'
      · rw [subWordGo_succ_neg hg]
        have hno2 : ¬ BOccB (bdryL (some c)) w cs := fun h => hno (BOccB_cons_lift h)
        rw [ih (some c) cs hno2]

/-- A later alias pass cannot create a boundary-delimited occurrence of an
unrelated pattern: occurrences in the output pull back to the input. -/
theorem BOccB_subWordGo_pullback {w wq rq : List Char} (hwq0 : wq ≠ [])
    (hwqw : ∀ c ∈ wq, isWordC c = true) (hrqw : ∀ c ∈ rq, isWordC c = true)
    (hrq0 : rq ≠ []) (hww : ∀ c ∈ w, isWordC c = true) (hw0 : w ≠ [])
    (hnp : rq.isPrefixOf w = false) :
    ∀ (fuel : Nat) (prev : Option Char) (s : List Char),
      BOccB (bdryL prev) w (subWordGo wq rq fuel prev s) →
      BOccB (bdryL prev) w s := by
  intro fuel
  induction fuel with
  | zero => intro prev s h; exact h
  | succ fuel ih =>
    intro prev s h
    cases s with
    | nil => exact h
    | cons c cs =>
      by_cases hg : (wq.isPrefixOf (c :: cs) && bdryL prev &&
          bdryR ((c :: cs).drop wq.length)) = true
      · rw [subWordGo_succ_pos hg] at h
        rcases BOccB_word_append_elim rq hrqw h with ⟨-, b, hb, hnw⟩ | h2 | h2
        · exact (word_block_prefix_false hrqw hnp hb hnw).elim
        · simp only [Bool.and_eq_true] at hg
          obtain ⟨⟨hpre, hbl⟩, hbr⟩ := hg
          have hcw : isWordC c = true := head_word_of_prefix hwqw hwq0 hpre
          have hlast := bdryL_getLastD_false hwqw hcw
          have hih := ih (some (wq.getLastD c)) ((c :: cs).drop wq.length)
          rw [hlast] at hih
          have h3 := hih h2
          have heq : c :: cs = wq ++ (c :: cs).drop wq.length :=
            (List.prefix_iff_eq_append.mp (List.isPrefixOf_iff_prefix.mp hpre)).symm
          rw [heq]
          exact BOccB_append_lift wq h3
        · exact absurd h2.1 hrq0
      · rw [subWordGo_succ_neg hg] at h
        rcases BOccB_cons_elim h with ⟨hok, b, hb, hnw⟩ | h2
        · cases w with
          | nil => exact absurd rfl hw0
          | cons e w2 =>
            rw [List.cons_append] at hb
            injection hb with h1 h2'
            have hcw : isWordC c = true := by
              rw [h1]
              exact hww e (List.mem_cons_self e w2)
            obtain ⟨b0, hcs, hb0⟩ := subWordPrefix_pullback fuel c cs w2 b hcw
              (fun x hx => hww x (List.mem_cons_of_mem e hx)) h2'.symm hnw
            refine ⟨[], b0, ?_, fun _ => hok, fun d hd => Option.noConfusion hd, hb0⟩
            show c :: cs = (e :: w2) ++ b0
            rw [hcs, List.cons_append, h1]
        · have hih := ih (some c) cs
          exact BOccB_cons_lift (hih h2)

end MainPy

namespace MainPy

/-- An all-word prefix of the output of a character replacement with a
right boundary pulls back to the input, provided the inserted block is not
an infix of the prefix. -/
theorem replacePrefix_pullback_word {o : Char} {n : List Char}
    (hn : ∀ c ∈ n, isWordC c = true) (hn0 : n ≠ []) :
    ∀ (cs v b : List Char), (∀ x ∈ v, isWordC x = true) → ¬ (n <:+: v) →
      v ++ b = replaceCharL o n cs → headNW b →
      ∃ b0, cs = v ++ b0 ∧ headNW b0 := by
  intro cs
  induction cs with
  | nil =>
    intro v b hv hni he hb
    have he' : v ++ b = [] := he
    rcases List.append_eq_nil.mp he' with ⟨hv0, hb0⟩
    refine ⟨[], ?_, headNW_nil⟩
    rw [hv0]
    rfl
  | cons e es ih =>
    intro v b hv hni he hb
    by_cases heo : e = o
    · rw [replaceCharL_cons_pos heo] at he
      cases v with
      | nil =>
        exfalso
        cases n with
        | nil => exact hn0 rfl
        | cons f fs =>
          have hbv : b = f :: (fs ++ replaceCharL o (f :: fs) es) := he
          have hf : b.head? = some f := by rw [hbv]; rfl
          have h1 := hb f hf
          rw [hn f (List.mem_cons_self f fs)] at h1
          cases h1
      | cons x v' =>
        have h1 : (x :: v') <+: n ++ replaceCharL o n es := ⟨b, he⟩
        have h2 : n <+: n ++ replaceCharL o n es := ⟨_, rfl⟩
        rcases List.prefix_or_prefix_of_prefix h1 h2 with hvn | hnv
        · by_cases hveq : (x :: v') = n
          · exact absurd (show n <:+: x :: v' by rw [hveq]) hni
          · exfalso
            have hn2 : (x :: v') ++ n.drop (x :: v').length = n :=
              List.prefix_iff_eq_append.mp hvn
            have hn2ne : n.drop (x :: v').length ≠ [] := by
              intro h0
              rw [h0, List.append_nil] at hn2
              exact hveq hn2
            have hbv : b = n.drop (x :: v').length ++ replaceCharL o n es := by
              have h3 : (x :: v') ++ b =
                  (x :: v') ++ (n.drop (x :: v').length ++ replaceCharL o n es) := by
                rw [he, ← List.append_assoc, hn2]
              exact List.append_cancel_left h3
            cases hdd : n.drop (x :: v').length with
            | nil => exact hn2ne hdd
            | cons f fs =>
              have hf : b.head? = some f := by rw [hbv, hdd]; rfl
              have hfw : isWordC f = true := hn f (by
                have hd1 : f ∈ n.drop (x :: v').length := by
                  rw [hdd]; exact List.mem_cons_self f fs
                exact List.drop_subset _ _ hd1)
              rw [hb f hf] at hfw
              cases hfw
        · exact absurd hnv.isInfix hni
    · rw [replaceCharL_cons_neg heo] at he
      cases v with
      | nil =>
        refine ⟨e :: es, rfl, ?_⟩
        intro d hd
        injection hd with hd
        have hbv : b = e :: replaceCharL o n es := he
        have h1 := hb e (by rw [hbv]; rfl)
        rw [← hd]
        exact h1
      | cons x v' =>
        rw [List.cons_append] at he
        injection he with h1 h2
        obtain ⟨b0, hes, hb0⟩ := ih v' b (fun y hy => hv y (List.mem_cons_of_mem x hy))
          (fun hi => hni (List.infix_cons hi)) h2 hb
        refine ⟨b0, ?_, hb0⟩
        rw [hes, List.cons_append, h1]

/-- Same pull-back for a replacement block of non-word characters. -/
theorem replacePrefix_pullback_nonword {o : Char} {n : List Char}
    (ho : isWordC o = false) (hn : ∀ c ∈ n, isWordC c = false) (hn0 : n ≠ []) :
    ∀ (cs v b : List Char), (∀ x ∈ v, isWordC x = true) →
      v ++ b = replaceCharL o n cs → headNW b →
      ∃ b0, cs = v ++ b0 ∧ headNW b0 := by
  intro cs
  induction cs with
  | nil =>
    intro v b hv he hb
    have he' : v ++ b = [] := he
    rcases List.append_eq_nil.mp he' with ⟨hv0, hb0⟩
    refine ⟨[], ?_, headNW_nil⟩
    rw [hv0]
    rfl
  | cons e es ih =>
    intro v b hv he hb
    by_cases heo : e = o
    · rw [replaceCharL_cons_pos heo] at he
      cases v with
      | nil =>
        refine ⟨e :: es, rfl, ?_⟩
        intro d hd
        injection hd with hd
        rw [← hd, heo]
        exact ho
      | cons x v' =>
        exfalso
        cases n with
        | nil => exact hn0 rfl
        | cons f fs =>
          rw [List.cons_append] at he
          have he2 : x :: (v' ++ b) = f :: (fs ++ replaceCharL o (f :: fs) es) := he
          injection he2 with h1 h2
          have hxw := hv x (List.mem_cons_self x v')
          rw [h1, hn f (List.mem_cons_self f fs)] at hxw
          cases hxw
    · rw [replaceCharL_cons_neg heo] at he
      cases v with
      | nil =>
        refine ⟨e :: es, rfl, ?_⟩
        intro d hd
        injection hd with hd
        have hbv : b = e :: replaceCharL o n es := he
        have h1 := hb e (by rw [hbv]; rfl)
        rw [← hd]
        exact h1
      | cons x v' =>
        rw [List.cons_append] at he
        injection he with h1 h2
        obtain ⟨b0, hes, hb0⟩ := ih v' b (fun y hy => hv y (List.mem_cons_of_mem x hy)) h2 hb
        refine ⟨b0, ?_, hb0⟩
        rw [hes, List.cons_append, h1]

/-- Replacing a non-word character by an all-word block cannot create a
boundary-delimited occurrence of a pattern the block does not occur in. -/
theorem BOccB_replaceCharL_pullback_word {o : Char} {n w : List Char}
    (ho : isWordC o = false) (hn : ∀ c ∈ n, isWordC c = true) (hn0 : n ≠ [])
    (hww : ∀ c ∈ w, isWordC c = true) (hw0 : w ≠ []) (hni : ¬ (n <:+: w)) :
    ∀ (s : List Char) (ok : Bool), BOccB ok w (replaceCharL o n s) → BOccB ok w s := by
  have hnp : n.isPrefixOf w = false := by
    cases hh : n.isPrefixOf w
    · rfl
    · exact absurd (List.isPrefixOf_iff_prefix.mp hh).isInfix hni
  intro s
  induction s with
  | nil => intro ok h; exact h
  | cons c cs ih =>
    intro ok h
    by_cases hco : c = o
    · rw [replaceCharL_cons_pos hco] at h
      rcases BOccB_word_append_elim n hn h with ⟨-, b, hb, hnw⟩ | h2 | h2
      · exact (word_block_prefix_false hn hnp hb hnw).elim
      · have h3 := ih false h2
        have h4 : BOccB true w cs := BOccB_mono h3
        subst hco
        refine BOccB_cons_lift ?_
        have hoc : (!isWordC c) = true := by rw [ho]; rfl
        rw [hoc]
        exact h4
      · exact absurd h2.1 hn0
    · rw [replaceCharL_cons_neg hco] at h
      rcases BOccB_cons_elim h with ⟨hok, b, hb, hnw⟩ | h2
      · cases w with
        | nil => exact absurd rfl hw0
        | cons e w2 =>
          rw [List.cons_append] at hb
          injection hb with h1 h2'
          obtain ⟨b0, hes, hb0⟩ := replacePrefix_pullback_word hn hn0 cs w2 b
            (fun x hx => hww x (List.mem_cons_of_mem e hx))
            (fun hi => hni (List.infix_cons hi)) h2'.symm hnw
          refine ⟨[], b0, ?_, fun _ => hok, fun d hd => Option.noConfusion hd, hb0⟩
          show c :: cs = (e :: w2) ++ b0
          rw [hes, List.cons_append, ← h1]
      · exact BOccB_cons_lift (ih (!isWordC c) h2)

/-- Replacing a non-word character by non-word characters cannot create a
boundary-delimited occurrence of an all-word pattern. -/
theorem BOccB_replaceCharL_pullback_nonword {o : Char} {n w : List Char}
    (ho : isWordC o = false) (hn : ∀ c ∈ n, isWordC c = false) (hn0 : n ≠ [])
    (hww : ∀ c ∈ w, isWordC c = true) (hw0 : w ≠ []) :
    ∀ (s : List Char) (ok : Bool), BOccB ok w (replaceCharL o n s) → BOccB ok w s := by
  intro s
  induction s with
  | nil => intro ok h; exact h
  | cons c cs ih =>
    intro ok h
    by_cases hco : c = o
    · rw [replaceCharL_cons_pos hco] at h
      have h2 := BOccB_nonword_append_elim hw0 hww n hn h
      have h3 := ih true h2
      subst hco
      refine BOccB_cons_lift ?_
      have hoc : (!isWordC c) = true := by rw [ho]; rfl
      rw [hoc]
      exact h3
    · rw [replaceCharL_cons_neg hco] at h
      rcases BOccB_cons_elim h with ⟨hok, b, hb, hnw⟩ | h2
      · cases w with
        | nil => exact absurd rfl hw0
        | cons e w2 =>
          rw [List.cons_append] at hb
          injection hb with h1 h2'
          obtain ⟨b0, hes, hb0⟩ := replacePrefix_pullback_nonword ho hn hn0 cs w2 b
            (fun x hx => hww x (List.mem_cons_of_mem e hx)) h2'.symm hnw
          refine ⟨[], b0, ?_, fun _ => hok, fun d hd => Option.noConfusion hd, hb0⟩
          show c :: cs = (e :: w2) ++ b0
          rw [hes, List.cons_append, ← h1]
      · exact BOccB_cons_lift (ih (!isWordC c) h2)

end MainPy

namespace MainPy

/-! ## C9 layer E: lifting the occurrence lemmas to the concrete passes -/

/-- Occurrences of an unrelated all-word pattern pull back through a whole
sequence of alias passes. -/
theorem BOccB_aliasFold_pullback {w : List Char} :
    ∀ (L : List (String × String)) (s : List Char),
      (∀ q ∈ L, q.1.toList ≠ [] ∧ q.2.toList ≠ [] ∧
        (∀ c ∈ q.1.toList, isWordC c = true) ∧ (∀ c ∈ q.2.toList, isWordC c = true) ∧
        (q.2.toList).isPrefixOf w = false) →
      (∀ c ∈ w, isWordC c = true) → w ≠ [] →
      BOccB true w (L.foldl (fun acc p => subWord p.1.toList p.2.toList acc) s) →
      BOccB true w s := by
  intro L
  induction L with
  | nil => intro s _ _ _ h; exact h
  | cons q L' ih =>
    intro s hL hww hw0 h
    obtain ⟨hq1, hq2, hq3, hq4, hq5⟩ := hL q (List.mem_cons_self q L')
    have h2 := ih (subWord q.1.toList q.2.toList s)
      (fun p hp => hL p (List.mem_cons_of_mem q hp)) hww hw0 h
    exact BOccB_subWordGo_pullback hq1 hq3 hq4 hq2 hww hw0 hq5 _ none s h2

/-- After the whole alias pass sequence no pattern of the sequence has a
boundary-delimited occurrence left. -/
theorem noBOccB_foldl_of_mem :
    ∀ (L : List (String × String)) (s : List Char) (p : String × String), p ∈ L →
      (∀ q ∈ L, q.1.toList ≠ [] ∧ q.2.toList ≠ [] ∧
        (∀ c ∈ q.1.toList, isWordC c = true) ∧ (∀ c ∈ q.2.toList, isWordC c = true)) →
      (∀ q ∈ L, ∀ q' ∈ L, (q'.2.toList).isPrefixOf q.1.toList = false) →
      ¬ BOccB true p.1.toList
        (L.foldl (fun acc pr => subWord pr.1.toList pr.2.toList acc) s) := by
  intro L
  induction L with
  | nil => intro s p hp; cases hp
  | cons q L' ih =>
    intro s p hp hA hB h
    rcases List.mem_cons.mp hp with hpq | hp'
    · subst hpq
      have hmem : p ∈ p :: L' := List.mem_cons_self p L'
      obtain ⟨ha1, ha2, ha3, ha4⟩ := hA p hmem
      have h2 := BOccB_aliasFold_pullback L' (subWord p.1.toList p.2.toList s)
        (fun q' hq' => by
          obtain ⟨hb1, hb2, hb3, hb4⟩ := hA q' (List.mem_cons_of_mem p hq')
          exact ⟨hb1, hb2, hb3, hb4, hB p hmem q' (List.mem_cons_of_mem p hq')⟩)
        ha3 ha1 h
      exact noBOccB_after_subWordGo ha1 ha3 ha4 ha2 (hB p hmem p hmem)
        (s.length + 1) none s (by omega) h2
    · exact ih (subWord q.1.toList q.2.toList s) p hp'
        (fun q' hq' => hA q' (List.mem_cons_of_mem q hq'))
        (fun q' hq' q'' hq'' =>
          hB q' (List.mem_cons_of_mem q hq') q'' (List.mem_cons_of_mem q hq'')) h

/-- Occurrences of an all-word pattern pull back through the operator-symbol
passes: each pass replaces a non-word character either by word characters
that do not occur inside the pattern or by non-word characters. -/
theorem BOccB_symFold_pullback {w : List Char} (hww : ∀ c ∈ w, isWordC c = true)
    (hw0 : w ≠ []) :
    ∀ (ps : List (Char × String)) (s : List Char),
      (∀ q ∈ ps, isWordC q.1 = false ∧ q.2.toList ≠ [] ∧
        ((∀ c ∈ q.2.toList, isWordC c = true) ∧ ¬ (q.2.toList <:+: w) ∨
         (∀ c ∈ q.2.toList, isWordC c = false))) →
      BOccB true w (ps.foldl (fun acc p => replaceCharL p.1 p.2.toList acc) s) →
      BOccB true w s := by
  intro ps
  induction ps with
  | nil => intro s _ h; exact h
  | cons q qs ih =>
    intro s hps h
    obtain ⟨hq1, hq2, hq3⟩ := hps q (List.mem_cons_self q qs)
    have h2 := ih (replaceCharL q.1 q.2.toList s)
      (fun p hp => hps p (List.mem_cons_of_mem q hp)) h
    rcases hq3 with ⟨hqw, hqi⟩ | hqn
    · exact BOccB_replaceCharL_pullback_word hq1 hqw hq2 hww hw0 hqi s true h2
    · exact BOccB_replaceCharL_pullback_nonword hq1 hqn hq2 hww hw0 s true h2

/-- A sequence of alias passes none of whose patterns occurs
boundary-delimited is the identity. -/
theorem aliasFold_eq_self :
    ∀ (L : List (String × String)) (s : List Char),
      (∀ q ∈ L, ¬ BOccB true q.1.toList s) →
      L.foldl (fun acc p => subWord p.1.toList p.2.toList acc) s = s := by
  intro L
  induction L with
  | nil => intro s _; rfl
  | cons q L' ih =>
    intro s hL
    have h1 : subWord q.1.toList q.2.toList s = s :=
      subWordGo_eq_self_of_no_occ (s.length + 1) none s (hL q (List.mem_cons_self q L'))
    show L'.foldl _ (subWord q.1.toList q.2.toList s) = s
    rw [h1]
    exact ih s (fun p hp => hL p (List.mem_cons_of_mem q hp))

/-- Characters of an alias-pass output come from the input or from a
replacement word. -/
theorem mem_aliasFold {c : Char} :
    ∀ (L : List (String × String)) (s : List Char),
      c ∈ L.foldl (fun acc p => subWord p.1.toList p.2.toList acc) s →
      c ∈ s ∨ ∃ q ∈ L, c ∈ q.2.toList := by
  intro L
  induction L with
  | nil => intro s h; exact Or.inl h
  | cons q L' ih =>
    intro s h
    rcases ih (subWord q.1.toList q.2.toList s) h with h1 | ⟨q', hq', hc⟩
    · rcases mem_subWordGo (s.length + 1) none s h1 with h2 | h2
      · exact Or.inl h2
      · exact Or.inr ⟨q, List.mem_cons_self q L', h2⟩
    · exact Or.inr ⟨q', List.mem_cons_of_mem q hq', hc⟩

/-- Characters of a character-replacement output come from the input or
from a replacement string. -/
theorem mem_replaceFold {c : Char} :
    ∀ (ps : List (Char × String)) (s : List Char),
      c ∈ ps.foldl (fun acc p => replaceCharL p.1 p.2.toList acc) s →
      c ∈ s ∨ ∃ q ∈ ps, c ∈ q.2.toList := by
  intro ps
  induction ps with
  | nil => intro s h; exact Or.inl h
  | cons q qs ih =>
    intro s h
    rcases ih (replaceCharL q.1 q.2.toList s) h with h1 | ⟨q', hq', hc⟩
    · rcases mem_replaceCharL s h1 with h2 | h2
      · exact Or.inl h2
      · exact Or.inr ⟨q, List.mem_cons_self q qs, h2⟩
    · exact Or.inr ⟨q', List.mem_cons_of_mem q hq', hc⟩

/-- The whitespace canonical form survives a sequence of alias passes. -/
theorem aliasFold_wsOk :
    ∀ (L : List (String × String)) (s : List Char),
      (∀ q ∈ L, q.1.toList ≠ [] ∧ q.2.toList ≠ [] ∧
        (∀ c ∈ q.1.toList, isSpaceC c = false) ∧ (∀ c ∈ q.2.toList, isSpaceC c = false)) →
      spOk false s = true → hdOk s = true → tlOk s = true →
      spOk false (L.foldl (fun acc p => subWord p.1.toList p.2.toList acc) s) = true ∧
      hdOk (L.foldl (fun acc p => subWord p.1.toList p.2.toList acc) s) = true ∧
      tlOk (L.foldl (fun acc p => subWord p.1.toList p.2.toList acc) s) = true := by
  intro L
  induction L with
  | nil => intro s _ h0 h1 h2; exact ⟨h0, h1, h2⟩
  | cons q L' ih =>
    intro s hL h0 h1 h2
    obtain ⟨hq1, hq2, hq3, hq4⟩ := hL q (List.mem_cons_self q L')
    exact ih (subWord q.1.toList q.2.toList s)
      (fun p hp => hL p (List.mem_cons_of_mem q hp))
      (subWordGo_spOk hq3 hq1 hq4 hq2 _ none s false h0)
      (subWordGo_hdOk hq4 hq2 _ none s h1)
      (subWordGo_tlOk hq1 hq4 hq2 _ none s h2)

/-- The whitespace canonical form survives a sequence of character
replacements. -/
theorem replaceFold_wsOk :
    ∀ (ps : List (Char × String)) (s : List Char),
      (∀ q ∈ ps, isSpaceC q.1 = false ∧ q.2.toList ≠ [] ∧
        (∀ c ∈ q.2.toList, isSpaceC c = false)) →
      spOk false s = true → hdOk s = true → tlOk s = true →
      spOk false (ps.foldl (fun acc p => replaceCharL p.1 p.2.toList acc) s) = true ∧
      hdOk (ps.foldl (fun acc p => replaceCharL p.1 p.2.toList acc) s) = true ∧
      tlOk (ps.foldl (fun acc p => replaceCharL p.1 p.2.toList acc) s) = true := by
  intro ps
  induction ps with
  | nil => intro s _ h0 h1 h2; exact ⟨h0, h1, h2⟩
  | cons q qs ih =>
    intro s hps h0 h1 h2
    obtain ⟨hq1, hq2, hq3⟩ := hps q (List.mem_cons_self q qs)
    exact ih (replaceCharL q.1 q.2.toList s)
      (fun p hp => hps p (List.mem_cons_of_mem q hp))
      (replaceCharL_spOk hq1 hq3 hq2 s false h0)
      (replaceCharL_hdOk hq3 hq2 s h1)
      (replaceCharL_tlOk hq3 hq2 s h2)

/-- After a replacement sequence runs, the replaced character is gone for
good, provided no replacement string reintroduces it. -/
theorem not_mem_foldl_replaceChar_after_own :
    ∀ (ps : List (Char × String)) (s : List Char) (p : Char × String), p ∈ ps →
      (∀ q ∈ ps, p.1 ∉ q.2.toList) →
      p.1 ∉ ps.foldl (fun acc q => replaceCharL q.1 q.2.toList acc) s := by
  intro ps
  induction ps with
  | nil => intro s p hp; cases hp
  | cons q qs ih =>
    intro s p hp hrep
    rcases List.mem_cons.mp hp with hpq | hp'
    · subst hpq
      intro hmem
      exact not_mem_foldl_replaceChar qs _
        (not_mem_replaceCharL_self (hrep p (List.mem_cons_self p qs)) s)
        (fun q' hq' => hrep q' (List.mem_cons_of_mem p hq')) hmem
    · exact ih _ p hp' (fun q' hq' => hrep q' (List.mem_cons_of_mem q hq'))

end MainPy


namespace MainPy

/-! ## C9 layer F: assembling the idempotence of preprocess_text -/

theorem cyrPass_eq_self_of_no_cyr {t : List Char}
    (h : ∀ c ∈ t, ∀ p ∈ cyrPairs, c ≠ p.1) :
    cyrSubL (aliasSubL (wsL t)) = aliasSubL (wsL t) := by
  have hCyrAl : ∀ p ∈ cyrPairs, ∀ q ∈ aliasPairs, p.1 ∉ q.2.toList := by decide
  have hCyrSp : ∀ p ∈ cyrPairs, p.1 ≠ ' ' := by decide
  apply foldl_replaceChar_eq_self
  intro p hp hmem
  rcases mem_aliasFold aliasPairs (wsL t) hmem with h1 | ⟨q, hq, hc⟩
  · rcases mem_wsL h1 with h2 | h2
    · exact h p.1 h2 p hp rfl
    · exact hCyrSp p hp h2
  · exact hCyrAl p hp q hq hc

end MainPy

namespace MainPy

theorem preprocessL_no_cyr_form {t : List Char}
    (h : ∀ c ∈ t, ∀ p ∈ cyrPairs, c ≠ p.1) :
    preprocessL t = symSubL (aliasSubL (wsL t)) := by
  show symSubL (cyrSubL (aliasSubL (wsL t))) = _
  rw [cyrPass_eq_self_of_no_cyr h]

theorem noOcc_alias_in_preprocessL {t : List Char}
    (h : ∀ c ∈ t, ∀ p ∈ cyrPairs, c ≠ p.1) :
    ∀ p ∈ aliasPairs, ¬ BOccB true p.1.toList (preprocessL t) := by
  have hAwd : ∀ q ∈ aliasPairs, q.1.toList ≠ [] ∧ q.2.toList ≠ [] ∧
      (∀ c ∈ q.1.toList, isWordC c = true) ∧ (∀ c ∈ q.2.toList, isWordC c = true) := by
    decide
  have hAnp : ∀ q ∈ aliasPairs, ∀ q' ∈ aliasPairs,
      (q'.2.toList).isPrefixOf q.1.toList = false := by decide
  have hSym : ∀ p ∈ aliasPairs, ∀ q ∈ symPairs, isWordC q.1 = false ∧
      q.2.toList ≠ [] ∧ ((∀ c ∈ q.2.toList, isWordC c = true) ∧
        ¬ (q.2.toList <:+: p.1.toList) ∨ (∀ c ∈ q.2.toList, isWordC c = false)) := by
    decide
  intro p hp hocc
  rw [preprocessL_no_cyr_form h] at hocc
  obtain ⟨ha1, ha2, ha3, ha4⟩ := hAwd p hp
  have h2 := BOccB_symFold_pullback ha3 ha1 symPairs (aliasSubL (wsL t))
    (hSym p hp) hocc
  exact noBOccB_foldl_of_mem aliasPairs (wsL t) p hp hAwd hAnp h2

end MainPy

namespace MainPy

theorem preprocessL_wsOk {t : List Char}
    (h : ∀ c ∈ t, ∀ p ∈ cyrPairs, c ≠ p.1) :
    spOk false (preprocessL t) = true ∧ hdOk (preprocessL t) = true ∧
      tlOk (preprocessL t) = true := by
  have hAws : ∀ q ∈ aliasPairs, q.1.toList ≠ [] ∧ q.2.toList ≠ [] ∧
      (∀ c ∈ q.1.toList, isSpaceC c = false) ∧
      (∀ c ∈ q.2.toList, isSpaceC c = false) := by decide
  have hSws : ∀ q ∈ symPairs, isSpaceC q.1 = false ∧ q.2.toList ≠ [] ∧
      (∀ c ∈ q.2.toList, isSpaceC c = false) := by decide
  rw [preprocessL_no_cyr_form h]
  obtain ⟨p0, p1, p2⟩ := aliasFold_wsOk aliasPairs (wsL t) hAws
    (wsL_spOk t) (wsL_hdOk t) (wsL_tlOk t)
  exact replaceFold_wsOk symPairs (aliasSubL (wsL t)) hSws p0 p1 p2

theorem no_cyr_in_preprocessL {t : List Char}
    (h : ∀ c ∈ t, ∀ p ∈ cyrPairs, c ≠ p.1) :
    ∀ p ∈ cyrPairs, p.1 ∉ preprocessL t := by
  have hCyrAl : ∀ p ∈ cyrPairs, ∀ q ∈ aliasPairs, p.1 ∉ q.2.toList := by decide
  have hCyrSp : ∀ p ∈ cyrPairs, p.1 ≠ ' ' := by decide
  have hCyrSym : ∀ p ∈ cyrPairs, ∀ q ∈ symPairs, p.1 ∉ q.2.toList := by decide
  intro p hp hmem
  rw [preprocessL_no_cyr_form h] at hmem
  rcases mem_replaceFold symPairs (aliasSubL (wsL t)) hmem with h1 | ⟨q, hq, hc⟩
  · rcases mem_aliasFold aliasPairs (wsL t) h1 with h2 | ⟨q, hq, hc⟩
    · rcases mem_wsL h2 with h3 | h3
      · exact h p.1 h3 p hp rfl
      · exact hCyrSp p hp h3
    · exact hCyrAl p hp q hq hc
  · exact hCyrSym p hp q hq hc

theorem no_sym_in_preprocessL {t : List Char}
    (h : ∀ c ∈ t, ∀ p ∈ cyrPairs, c ≠ p.1) :
    ∀ p ∈ symPairs, p.1 ∉ preprocessL t := by
  have hSymSym : ∀ p ∈ symPairs, ∀ q ∈ symPairs, p.1 ∉ q.2.toList := by decide
  intro p hp
  rw [preprocessL_no_cyr_form h]
  exact not_mem_foldl_replaceChar_after_own symPairs (aliasSubL (wsL t)) p hp
    (hSymSym p hp)

end MainPy

namespace MainPy

theorem preprocessL_idem {t : List Char}
    (h : ∀ c ∈ t, ∀ p ∈ cyrPairs, c ≠ p.1) :
    preprocessL (preprocessL t) = preprocessL t := by
  obtain ⟨p0, p1, p2⟩ := preprocessL_wsOk h
  have h_ws : wsL (preprocessL t) = preprocessL t := wsL_eq_self p0 p1 p2
  have h_alias : aliasSubL (preprocessL t) = preprocessL t :=
    aliasFold_eq_self aliasPairs _ (noOcc_alias_in_preprocessL h)
  have h_cyr : cyrSubL (preprocessL t) = preprocessL t :=
    foldl_replaceChar_eq_self cyrPairs _ (no_cyr_in_preprocessL h)
  have h_sym : symSubL (preprocessL t) = preprocessL t :=
    foldl_replaceChar_eq_self symPairs _ (no_sym_in_preprocessL h)
  show symSubL (cyrSubL (aliasSubL (wsL (preprocessL t)))) = preprocessL t
  rw [h_ws, h_alias, h_cyr, h_sym]

end MainPy

namespace MainPy

/-- C9 (amended): preprocess_text is idempotent on every input free of the
eight Cyrillic homoglyph characters of its substitution table; the original
full-generality claim fails on Cyrillic inputs, where the homoglyph pass
runs after the alias pass and can create a fresh alias token that only a
second application rewrites. -/
theorem c9_preprocess_idempotent_no_cyrillic (t : String)
    (h : ∀ c ∈ t.data, ∀ p ∈ cyrPairs, c ≠ p.1) :
    preprocessText (preprocessText t) = preprocessText t := by
  have h2 : preprocessL (preprocessL t.data) = preprocessL t.data := preprocessL_idem h
  have e : ∀ s : String, preprocessText s = (⟨preprocessL s.data⟩ : String) := fun _ => rfl
  have mkData : ∀ l : List Char, ((⟨l⟩ : String)).data = l := fun _ => rfl
  exact (congrArg preprocessText (e t)).trans
    ((e ⟨preprocessL t.data⟩).trans
      ((congrArg (fun l => (⟨preprocessL l⟩ : String)) (mkData (preprocessL t.data))).trans
        ((congrArg String.mk h2).trans (e t).symm)))

/-- Witness: the amended C9 theorem applied to a concrete Cyrillic-free
input. -/
theorem c9_preprocess_idempotent_no_cyrillic_witness :
    (∀ c ∈ ("2*x + sin(x)" : String).data, ∀ p ∈ cyrPairs, c ≠ p.1) ∧
      preprocessText (preprocessText "2*x + sin(x)") = preprocessText "2*x + sin(x)" :=
  ⟨by decide, c9_preprocess_idempotent_no_cyrillic "2*x + sin(x)" (by decide)⟩

end MainPy
